import Mathlib

/-!
Verification of the MVCC (multi-version concurrency control) engine specified in
spec.md against the repository sources.

The repository ships the test suite of the engine
(src/src/yb/tablet/mvcc-test.cc) and the clock interface
(src/src/yb/server/clock.h), but the implementation files (yb/tablet/mvcc.h,
yb/tablet/mvcc.cc) are not under src/.  Definitions below therefore model the
missing implementation from the spec; wherever the in-repo tests pin the exact
behaviour (exact diagnostic strings, exact watermark values along concrete call
sequences, exact internal fields such as no_new_transactions_at_or_before_),
those tests are authoritative and the model follows them.

Timestamps (HybridTime) are modelled as natural numbers: the spec describes
them as unsigned, totally ordered values with kMin/kMax/kInitial sentinels, and
every claim is about ordering, never about 64-bit wraparound.  Fatal contract
violations (CHECK failures, which abort the process) are modelled by returning
`none`; recoverable Status errors by `Except`.
-/

namespace Mvcc

/-- Modelled from the spec: the kMin sentinel of HybridTime. -/
def kMinHybridTime : Nat := 0

/-- Modelled from the spec: the kInitial sentinel of HybridTime.  The tests pin
its numeric value: a fresh manager snapshot prints `committed=\x7bT|T < 1\x7d`
(mvcc-test.cc, TestMvccBasic). -/
def kInitialHybridTime : Nat := 1

/-- Modelled from the spec: state of an in-flight operation inside the manager
(IN_FLIGHT is called RESERVED in the death-test messages; APPLYING as in the
spec). -/
inductive TxnState where
  | reserved : TxnState
  | applying : TxnState
deriving DecidableEq, Repr

/-- Modelled from the spec: an immutable snapshot, a copy of
(all_committed_before, committed_set, none_committed_at_or_after).  The
committed set is kept as the C++ vector committed_hybrid_times_ that the tests
manipulate directly (push_back order). -/
structure MvccSnapshot where
  all_committed_before : Nat
  committed_hybrid_times : List Nat
  none_committed_at_or_after : Nat
deriving DecidableEq, Repr

/-- Modelled from the spec: default-constructed snapshot ("no timestamp
committed", watermark at the initial sentinel). -/
def MvccSnapshot.initial : MvccSnapshot :=
  ⟨kInitialHybridTime, [], kInitialHybridTime⟩

/-- Modelled from the spec: the clean snapshot at cutoff t (watermark = t,
empty committed set, upper bound = t); also the point-in-time snapshot
constructor MvccSnapshot(HybridTime) of the tests. -/
def MvccSnapshot.clean (t : Nat) : MvccSnapshot := ⟨t, [], t⟩

/-- Modelled from the spec: membership scan of the committed set (the
IsCommittedFallback linear scan over the vector). -/
def MvccSnapshot.isCommittedFallback (s : MvccSnapshot) (t : Nat) : Bool :=
  decide (t ∈ s.committed_hybrid_times)

/-- Modelled from the spec, section 4.2: IsCommitted(t):
t < all_committed_before gives true; t at or above none_committed_at_or_after
gives false; otherwise membership in the committed set. -/
def MvccSnapshot.isCommitted (s : MvccSnapshot) (t : Nat) : Bool :=
  if t < s.all_committed_before then true
  else if s.none_committed_at_or_after ≤ t then false
  else s.isCommittedFallback t

/-- Modelled from the spec, section 4.2: cheap upper-bound test. -/
def MvccSnapshot.mayHaveCommittedOperationsAtOrAfter (s : MvccSnapshot) (t : Nat) : Bool :=
  decide (t < s.none_committed_at_or_after)

/-- Modelled from the spec, section 4.2: true unless t < all_committed_before,
with the edge case that a single-entry committed set equal to the watermark is
treated as fully clean when queried at the watermark itself (section 9 insists
this edge case be preserved exactly as written and not generalized). -/
def MvccSnapshot.mayHaveUncommittedOperationsAtOrBefore (s : MvccSnapshot) (t : Nat) : Bool :=
  if t < s.all_committed_before then false
  else if t = s.all_committed_before ∧
      s.committed_hybrid_times = [s.all_committed_before] then false
  else true

/-- Modelled from the spec, section 4.2: a snapshot is clean iff the committed
set is empty. -/
def MvccSnapshot.is_clean (s : MvccSnapshot) : Bool :=
  s.committed_hybrid_times.isEmpty

/-- Modelled from the spec, section 6: the diagnostic string.  The
`MvccSnapshot` prefix is pinned byte-for-byte by the assertions of
TestMvccBasic / TestMvccMultipleInFlight /
TestCleanTimeCoalescingOnOfflineOperations in src/src/yb/tablet/mvcc-test.cc;
the spec asks for the hole set to be printed sorted. -/
def MvccSnapshot.toStr (s : MvccSnapshot) : String :=
  if s.committed_hybrid_times.isEmpty then
    "MvccSnapshot[committed=\x7bT|T < " ++ toString s.all_committed_before ++ "\x7d]"
  else
    "MvccSnapshot[committed=\x7bT|T < " ++ toString s.all_committed_before ++
      " or (T in \x7b" ++
      String.intercalate ","
        ((s.committed_hybrid_times.insertionSort (· ≤ ·)).map toString) ++
      "\x7d)\x7d]"

/-- Modelled from the spec: AddCommittedHybridTime on a snapshot — append the
timestamp to the committed set (unless already committed) and ratchet the
upper bound none_committed_at_or_after to just past it. -/
def MvccSnapshot.addCommittedHybridTime (s : MvccSnapshot) (t : Nat) : MvccSnapshot :=
  if s.isCommitted t then s
  else
    { all_committed_before := s.all_committed_before
      committed_hybrid_times := s.committed_hybrid_times ++ [t]
      none_committed_at_or_after :=
        if s.none_committed_at_or_after ≤ t then t + 1
        else s.none_committed_at_or_after }

/-- Modelled from the spec: coalescing a snapshot to a new watermark — raise
all_committed_before and drop the committed entries that fell below it. -/
def MvccSnapshot.coalesce (s : MvccSnapshot) (acb : Nat) : MvccSnapshot :=
  { all_committed_before := acb
    committed_hybrid_times := s.committed_hybrid_times.filter (fun v => acb ≤ v)
    none_committed_at_or_after := s.none_committed_at_or_after }

/-! Association-list helpers for the in-flight map (timestamp to TxnState). -/

/-- Lookup of a timestamp in the in-flight map. -/
def inFlightLookup : List (Nat × TxnState) → Nat → Option TxnState
  | [], _ => none
  | p :: rest, t => if p.1 = t then some p.2 else inFlightLookup rest t

/-- Removal of the entry of a timestamp from the in-flight map. -/
def inFlightErase : List (Nat × TxnState) → Nat → List (Nat × TxnState)
  | [], _ => []
  | p :: rest, t => if p.1 = t then rest else p :: inFlightErase rest t

/-- Transition of the entry of a timestamp to a new state. -/
def inFlightSet : List (Nat × TxnState) → Nat → TxnState → List (Nat × TxnState)
  | [], _, _ => []
  | p :: rest, t, st =>
    if p.1 = t then (t, st) :: rest else p :: inFlightSet rest t st

/-- Minimum timestamp of the in-flight map (the cached earliest_in_flight_ of
the implementation; `none` stands for the kMax sentinel used when the map is
empty). -/
def inFlightMinKey : List (Nat × TxnState) → Option Nat
  | [] => none
  | p :: rest =>
    match inFlightMinKey rest with
    | none => some p.1
    | some m => some (min p.1 m)

/-- Modelled from the spec: the mutable manager state.  The logical clock
(an external collaborator, spec section 6) is folded into the state as the
last value it handed out: Now() returns clock+1 and advances it, matching the
LogicalClock used by the tests (created at the initial sentinel, first Now()
returns 1); Update ratchets it forward. -/
structure MvccManager where
  clock : Nat
  inFlight : List (Nat × TxnState)
  no_new_transactions_at_or_before : Nat
  cur_snap : MvccSnapshot
deriving DecidableEq, Repr

/-- Modelled from the spec: a freshly constructed manager over a logical clock
starting at the initial sentinel. -/
def MvccManager.create : MvccManager :=
  { clock := 0
    inFlight := []
    no_new_transactions_at_or_before := kMinHybridTime
    cur_snap := .initial }

/-- Clock collaborator: Now() — strictly monotonic (clock.h contract). -/
def MvccManager.clockNow (m : MvccManager) : Nat × MvccManager :=
  (m.clock + 1, { m with clock := m.clock + 1 })

/-- Clock collaborator: Update — ratchets the clock forward, never backward. -/
def MvccManager.clockUpdate (m : MvccManager) (t : Nat) : MvccManager :=
  { m with clock := max m.clock t }

/-- Clock collaborator: IsAfter — the given time has definitely passed. -/
def MvccManager.clockIsAfter (m : MvccManager) (t : Nat) : Bool :=
  decide (t ≤ m.clock)

/-- First timestamp at or after c+1 that is not already in flight (the retry
loop of StartOperation: keep calling Now() until the insert succeeds).  Fuel
bounds the recursion; one more try than the map has entries always
suffices. -/
def freshFrom (l : List (Nat × TxnState)) (c : Nat) : Nat → Nat
  | 0 => c + 1
  | fuel + 1 =>
    if (inFlightLookup l (c + 1)).isSome then freshFrom l (c + 1) fuel
    else c + 1

/-- Modelled from the spec, section 4.1: StartOperation — obtain the next
timestamp from the clock (retrying while it collides with an in-flight entry)
and insert it as IN_FLIGHT. -/
def MvccManager.startOperation (m : MvccManager) : Nat × MvccManager :=
  let t := freshFrom m.inFlight m.clock (m.inFlight.length + 1)
  (t, { m with clock := t, inFlight := (t, .reserved) :: m.inFlight })

/-- Modelled from the spec, section 4.1: StartOperationAtLatest — like
StartOperation but the timestamp is taken at the cluster-wide upper bound
NowLatest(), modelled as the clock value plus an error margin `err`; the local
clock only advances by the underlying Now() call. -/
def MvccManager.startOperationAtLatest (m : MvccManager) (err : Nat) : Nat × MvccManager :=
  let t := freshFrom m.inFlight (m.clock + err) (m.inFlight.length + 1)
  (t, { m with clock := m.clock + 1, inFlight := (t, .reserved) :: m.inFlight })

/-- Modelled from the spec, section 4.1: StartOperationAtHybridTime — register
a caller-supplied timestamp; returns a Status error (state unchanged) when the
timestamp is already committed or already in flight. -/
def MvccManager.startOperationAtHybridTime (m : MvccManager) (h : Nat) :
    Except String MvccManager :=
  if m.cur_snap.isCommitted h then .error "already committed"
  else if (inFlightLookup m.inFlight h).isSome then .error "already in flight"
  else .ok { m with inFlight := (h, .reserved) :: m.inFlight }

/-- Modelled from the spec, sections 4.1 and 7: StartApplyingOperation —
transition IN_FLIGHT to APPLYING; a timestamp that is absent from the
in-flight map, or not in the IN_FLIGHT state, is a fatal contract violation
(`none`), as the death tests demand. -/
def MvccManager.startApplyingOperation (m : MvccManager) (t : Nat) : Option MvccManager :=
  match inFlightLookup m.inFlight t with
  | none => none
  | some .applying => none
  | some .reserved => some { m with inFlight := inFlightSet m.inFlight t .applying }

/-- Modelled from the spec: the shared commit body CommitOperationUnlocked —
checks the timestamp is not in the clock's future (the death tests exercise
this check), removes it from the in-flight map (fatal if absent), requires it
to be APPLYING (fatal otherwise), and adds it to the snapshot's committed set.
Returns whether the committed timestamp was the earliest in flight. -/
def MvccManager.commitOperationUnlocked (m : MvccManager) (t : Nat) :
    Option (Bool × MvccManager) :=
  if ¬ m.clockIsAfter t then none
  else
    match inFlightLookup m.inFlight t with
    | none => none
    | some .reserved => none
    | some .applying =>
      some (decide (inFlightMinKey m.inFlight = some t),
        { m with
          inFlight := inFlightErase m.inFlight t
          cur_snap := m.cur_snap.addCommittedHybridTime t })

/-- Modelled from the spec: AdjustCleanTime — move the watermark to the
earliest in-flight timestamp when that is still below the safe time, otherwise
to just past the safe time, and drop committed entries that fell below it. -/
def MvccManager.adjustCleanTime (m : MvccManager) : MvccManager :=
  let acb :=
    match inFlightMinKey m.inFlight with
    | some e =>
      if e < m.no_new_transactions_at_or_before then e
      else m.no_new_transactions_at_or_before + 1
    | none => m.no_new_transactions_at_or_before + 1
  { m with cur_snap := m.cur_snap.coalesce acb }

/-- Modelled from the spec, section 4.1: CommitOperation — the shared commit
body, then raise the safe time no_new_transactions_at_or_before to the
committed timestamp (the tests read this field directly), and re-coalesce the
clean time when the earliest in-flight operation was committed. -/
def MvccManager.commitOperation (m : MvccManager) (t : Nat) : Option MvccManager :=
  (m.commitOperationUnlocked t).map fun r =>
    let m1 := { r.2 with
      no_new_transactions_at_or_before := max r.2.no_new_transactions_at_or_before t }
    if r.1 ∧ t ≤ m1.no_new_transactions_at_or_before then m1.adjustCleanTime else m1

/-- Modelled from the spec, section 4.1: OfflineCommitOperation — the shared
commit body without raising the safe time; the watermark is still re-coalesced
when the earliest in-flight operation was committed and the safe time had
already reached it (pinned by TestCleanTimeCoalescingOnOfflineOperations,
which ends in an OfflineCommitOperation and demands the coalesced
snapshot). -/
def MvccManager.offlineCommitOperation (m : MvccManager) (t : Nat) : Option MvccManager :=
  (m.commitOperationUnlocked t).map fun r =>
    if r.1 ∧ t ≤ r.2.no_new_transactions_at_or_before then r.2.adjustCleanTime else r.2

/-- Modelled from the spec, section 4.1: OfflineAdjustSafeTime — raise the safe
time to t (never lower it) and re-coalesce the clean time. -/
def MvccManager.offlineAdjustSafeTime (m : MvccManager) (t : Nat) : MvccManager :=
  MvccManager.adjustCleanTime
    { m with
      no_new_transactions_at_or_before := max m.no_new_transactions_at_or_before t }

/-- Modelled from the spec, section 4.1: AbortOperation — remove an IN_FLIGHT
timestamp; aborting an APPLYING or absent timestamp is a fatal contract
violation. -/
def MvccManager.abortOperation (m : MvccManager) (t : Nat) : Option MvccManager :=
  match inFlightLookup m.inFlight t with
  | none => none
  | some .applying => none
  | some .reserved => some { m with inFlight := inFlightErase m.inFlight t }

/-- Modelled from the spec, section 4.1: TakeSnapshot — copy the current
snapshot. -/
def MvccManager.takeSnapshot (m : MvccManager) : MvccSnapshot := m.cur_snap

/-- Modelled from the spec, section 4.1: GetMaxSafeTimeToReadAt — with nothing
in flight, sample the clock (so repeated calls keep advancing); otherwise the
timestamp just below the watermark (pinned by TestMaxSafeTimeToReadAt). -/
def MvccManager.getMaxSafeTimeToReadAt (m : MvccManager) : Nat × MvccManager :=
  if m.inFlight.isEmpty then m.clockNow
  else (m.cur_snap.all_committed_before - 1, m)

/-- Modelled from the spec, section 4.1: AreAllOperationsCommitted(t) — with
nothing in flight, true once the clock has reached t (no new operation can
start at or below it); otherwise true iff no in-flight timestamp is at or
below t.  This is also the wake condition of
WaitForCleanSnapshotAtHybridTime, pinned by the wait tests. -/
def MvccManager.areAllOperationsCommitted (m : MvccManager) (t : Nat) :
    Bool × MvccManager :=
  if m.inFlight.isEmpty then
    let r := m.clockNow
    (decide (t ≤ r.1), r.2)
  else
    match inFlightMinKey m.inFlight with
    | some e => (decide (t < e), m)
    | none => (true, m)

/-- Manager calls, for reasoning about whole histories.  Each constructor is
one public operation of the manager (readMaxSafeTime covers the read-only call
that still advances the clock). -/
inductive MgrOp where
  | startOp : MgrOp
  | startAtLatest (err : Nat) : MgrOp
  | startAtHybridTime (h : Nat) : MgrOp
  | startApplying (h : Nat) : MgrOp
  | commitOp (h : Nat) : MgrOp
  | offlineCommitOp (h : Nat) : MgrOp
  | offlineAdjust (h : Nat) : MgrOp
  | abortOp (h : Nat) : MgrOp
  | clockUpdateOp (h : Nat) : MgrOp
  | readMaxSafeTime : MgrOp
deriving DecidableEq, Repr

/-- Effect of one manager call on the state; `none` is a fatal contract
violation (a Status error from StartOperationAtHybridTime is returned to the
caller and leaves the state unchanged). -/
def MvccManager.applyOp (m : MvccManager) : MgrOp → Option MvccManager
  | .startOp => some (m.startOperation).2
  | .startAtLatest err => some (m.startOperationAtLatest err).2
  | .startAtHybridTime h =>
    match m.startOperationAtHybridTime h with
    | .ok m1 => some m1
    | .error _ => some m
  | .startApplying h => m.startApplyingOperation h
  | .commitOp h => m.commitOperation h
  | .offlineCommitOp h => m.offlineCommitOperation h
  | .offlineAdjust h => some (m.offlineAdjustSafeTime h)
  | .abortOp h => m.abortOperation h
  | .clockUpdateOp h => some (m.clockUpdate h)
  | .readMaxSafeTime => some (m.getMaxSafeTimeToReadAt).2

/-- Run a history of manager calls. -/
def runOps (m : MvccManager) : List MgrOp → Option MvccManager
  | [] => some m
  | op :: ops =>
    match m.applyOp op with
    | none => none
    | some m1 => runOps m1 ops

/-- Timestamps handed out by the StartOperation calls of a history, in call
order (the history is cut off at a fatal violation). -/
def runStarts (m : MvccManager) : List MgrOp → List Nat
  | [] => []
  | .startOp :: ops =>
    (m.startOperation).1 :: runStarts (m.startOperation).2 ops
  | op :: ops =>
    match m.applyOp op with
    | none => []
    | some m1 => runStarts m1 ops

/-- Modelled from the spec, section 4.1: WaitForCleanSnapshotAtHybridTime as a
function of the waiting point: the wake condition (AreAllOperationsCommitted)
is checked on entry and re-checked after every further manager call that
happens before the deadline; when it holds, the clean snapshot at t is
produced; exhausting the calls that fit before the deadline is the TimedOut
error.  The result carries how many calls were consumed before waking. -/
def MvccManager.waitForCleanSnapshotAtHybridTime (m : MvccManager) (t : Nat) :
    List MgrOp → Except Unit (Nat × MvccSnapshot)
  | [] =>
    if (m.areAllOperationsCommitted t).1 then .ok (0, MvccSnapshot.clean t)
    else .error ()
  | e :: rest =>
    let r := m.areAllOperationsCommitted t
    if r.1 then .ok (0, MvccSnapshot.clean t)
    else
      match r.2.applyOp e with
      | none => .error ()
      | some m1 =>
        (m1.waitForCleanSnapshotAtHybridTime t rest).map fun p => (p.1 + 1, p.2)

/-- Number of in-flight entries with a key above c; bounds the retries the
StartOperation loop can take. -/
def countGT (l : List (Nat × TxnState)) (c : Nat) : Nat :=
  (l.filter fun p => decide (c < p.1)).length

/-- Invariant tying the watermark, the safe time, the committed set, the
clock and the in-flight map together. -/
structure Inv (m : MvccManager) : Prop where
  nodup : (m.inFlight.map Prod.fst).Nodup
  pos : ∀ p ∈ m.inFlight, 1 ≤ p.1
  notCommitted : ∀ p ∈ m.inFlight, m.cur_snap.isCommitted p.1 = false
  listLtNcaa : ∀ e ∈ m.cur_snap.committed_hybrid_times,
    e < m.cur_snap.none_committed_at_or_after
  listLeClock : ∀ e ∈ m.cur_snap.committed_hybrid_times, e ≤ m.clock
  noNewCommitted :
    m.cur_snap.isCommitted m.no_new_transactions_at_or_before = true
  noNewLeClock : m.no_new_transactions_at_or_before ≤ m.clock
  acbLe : m.cur_snap.all_committed_before ≤
    m.no_new_transactions_at_or_before + 1
  acbPos : 1 ≤ m.cur_snap.all_committed_before

/-- Histories without OfflineAdjustSafeTime. -/
def MgrOp.isOfflineAdjust : MgrOp → Bool
  | .offlineAdjust _ => true
  | _ => false

/-- Offline operations (bootstrap/replay-only calls). -/
def MgrOp.isOffline : MgrOp → Bool
  | .offlineCommitOp _ => true
  | .offlineAdjust _ => true
  | _ => false

structure InvB (m : MvccManager) : Prop where
  base : Inv m
  listLeNoNew : ∀ e ∈ m.cur_snap.committed_hybrid_times,
    e ≤ m.no_new_transactions_at_or_before
  acbNotInList :
    m.cur_snap.all_committed_before ∉ m.cur_snap.committed_hybrid_times

/-- Calls that can move the watermark on their own: CommitOperation and
OfflineAdjustSafeTime (OfflineCommitOperation can only re-coalesce once one of
those has raised the safe time). -/
def MgrOp.movesWatermark : MgrOp → Bool
  | .commitOp _ => true
  | .offlineAdjust _ => true
  | _ => false

/-! Snapshot sentinels of the spec and concrete states and histories used by
the claim theorems and their witnesses. -/

/-- Modelled from the spec: the kMax sentinel (64-bit HybridTime maximum). -/
def kMaxHybridTime : Nat := 2 ^ 64 - 1

/-- Modelled from the spec: the snapshot that includes all operations
(watermark at the maximum sentinel). -/
def MvccSnapshot.createSnapshotIncludingAllOperations : MvccSnapshot :=
  .clean kMaxHybridTime

/-- Modelled from the spec: the snapshot that includes no operations
(watermark at the minimum sentinel). -/
def MvccSnapshot.createSnapshotIncludingNoOperations : MvccSnapshot :=
  .clean kMinHybridTime

/-- State with operations 1 (IN_FLIGHT) and 2 (APPLYING): two StartOperation
calls on a fresh manager, then StartApplyingOperation(2). -/
def c2mA : MvccManager := ⟨2, [(2, .applying), (1, .reserved)], 0, ⟨1, [], 1⟩⟩

/-- c2mA after CommitOperation(2): 2 is a hole, the watermark is unmoved. -/
def c2mB : MvccManager := ⟨2, [(1, .reserved)], 2, ⟨1, [2], 3⟩⟩

/-- c2mB after StartApplyingOperation(1). -/
def c2mC : MvccManager := ⟨2, [(1, .applying)], 2, ⟨1, [2], 3⟩⟩

/-- c2mC after CommitOperation(1): the snapshot collapsed to the cutoff 3. -/
def c2mD : MvccManager := ⟨2, [], 2, ⟨3, [], 3⟩⟩

/-- The manager of TestIllegalStateTransitionsCrash after Update(20) and one
StartOperation (timestamp 21). -/
def c4m1 : MvccManager := ((MvccManager.create.clockUpdate 20).startOperation).2

/-- c4m1 after AbortOperation(21). -/
def c4m2 : MvccManager := ⟨21, [], 0, ⟨1, [], 1⟩⟩

/-- c4m2 after StartOperation (timestamp 22) and StartApplyingOperation(22). -/
def c4m3 : MvccManager := ⟨22, [(22, .applying)], 0, ⟨1, [], 1⟩⟩

/-- TestCleanTimeCoalescingOnOfflineOperations up to OfflineAdjustSafeTime(15). -/
def c5co : List MgrOp :=
  [.clockUpdateOp 20, .startAtHybridTime 10, .startAtHybridTime 15,
    .offlineAdjust 15]

/-- c5co continued to just before the final OfflineCommitOperation(10). -/
def c5co2 : List MgrOp :=
  c5co ++ [.startApplying 15, .offlineCommitOp 15, .startApplying 10]

/-- TestOfflineOperations up to OfflineCommitOperation(50). -/
def c5off : List MgrOp :=
  [.clockUpdateOp 100, .startAtHybridTime 50, .startApplying 50,
    .offlineCommitOp 50]

/-- An offline history after which the safe time to read at is no longer the
top of the contiguous committed prefix: 60 and 50 registered at hybrid times,
50 offline-committed, then 49 registered and committed normally. -/
def c6off : List MgrOp :=
  [.clockUpdateOp 100, .startAtHybridTime 60, .startAtHybridTime 50,
    .startApplying 50, .offlineCommitOp 50, .startAtHybridTime 49,
    .startApplying 49, .commitOp 49]

/-- Four operations started, none committed (TestMaxSafeTimeToReadAt). -/
def c6sf : List MgrOp := [.startOp, .startOp, .startOp, .startOp]

/-- One round of TestMaxSafeTimeToReadAt: start operation i while committing
operation i−4. -/
def c6step : Nat → List MgrOp := fun i =>
  (if i ≤ 10 then [MgrOp.startOp] else []) ++
    [.startApplying (i - 4), .commitOp (i - 4)]

/-- TestMaxSafeTimeToReadAt after the rounds 5..n. -/
def c6ops : Nat → List MgrOp := fun n =>
  c6sf ++ (List.range (n - 4)).flatMap (fun j => c6step (j + 5))

/-- The snapshot TestMayHaveUncommittedOperationsBefore builds by hand. -/
def c7snap : MvccSnapshot := ⟨10, [11, 13], 14⟩

/-- The single-entry edge-case snapshot of the same test. -/
def c7snap2 : MvccSnapshot := ⟨10, [10], 10⟩

/-- A history with an abort followed by commits that advance the watermark
past the aborted timestamp. -/
def c10ops : List MgrOp :=
  [.startOp, .startOp, .startOp, .abortOp 1, .startApplying 2, .commitOp 2,
    .startApplying 3, .commitOp 3]

/-! Helper lemmas about the in-flight association list. -/

theorem inFlightLookup_eq_none_iff (l : List (Nat × TxnState)) (t : Nat) :
    inFlightLookup l t = none ↔ t ∉ l.map Prod.fst := by
  induction l with
  | nil => simp [inFlightLookup]
  | cons p rest ih =>
    by_cases h : p.1 = t
    · simp [inFlightLookup, h]
    · simp only [inFlightLookup, if_neg h, ih, List.map_cons, List.mem_cons]
      constructor
      · intro hn hc
        rcases hc with hc | hc
        · exact h hc.symm
        · exact hn hc
      · intro hn hc
        exact hn (Or.inr hc)

theorem mem_of_inFlightLookup {l : List (Nat × TxnState)} {t : Nat} {s : TxnState}
    (h : inFlightLookup l t = some s) : (t, s) ∈ l := by
  induction l with
  | nil => simp [inFlightLookup] at h
  | cons p rest ih =>
    by_cases hp : p.1 = t
    · simp only [inFlightLookup, if_pos hp] at h
      have hps : p = (t, s) := by
        cases p
        simp_all
      rw [← hps]
      exact List.mem_cons_self _ _
    · simp only [inFlightLookup, if_neg hp] at h
      exact List.mem_cons_of_mem _ (ih h)

theorem inFlightErase_sublist (l : List (Nat × TxnState)) (t : Nat) :
    (inFlightErase l t).Sublist l := by
  induction l with
  | nil => simp [inFlightErase]
  | cons p rest ih =>
    by_cases hp : p.1 = t
    · simp only [inFlightErase, if_pos hp]
      exact (List.Sublist.refl rest).cons p
    · simp only [inFlightErase, if_neg hp]
      exact ih.cons₂ p

theorem mem_of_mem_inFlightErase {l : List (Nat × TxnState)} {t : Nat}
    {p : Nat × TxnState} (h : p ∈ inFlightErase l t) : p ∈ l :=
  (inFlightErase_sublist l t).subset h

theorem nodup_inFlightErase {l : List (Nat × TxnState)} (t : Nat)
    (h : (l.map Prod.fst).Nodup) : ((inFlightErase l t).map Prod.fst).Nodup :=
  (((inFlightErase_sublist l t).map Prod.fst).nodup h)

theorem key_ne_of_mem_inFlightErase {l : List (Nat × TxnState)} {t : Nat}
    {p : Nat × TxnState} (hnd : (l.map Prod.fst).Nodup)
    (hp : p ∈ inFlightErase l t) : p.1 ≠ t := by
  induction l with
  | nil => simp [inFlightErase] at hp
  | cons q rest ih =>
    simp only [List.map_cons, List.nodup_cons] at hnd
    by_cases hq : q.1 = t
    · simp only [inFlightErase, if_pos hq] at hp
      intro hpt
      exact hnd.1 (by
        rw [← hq] at hpt
        exact hpt ▸ List.mem_map_of_mem Prod.fst hp)
    · simp only [inFlightErase, if_neg hq] at hp
      rcases List.mem_cons.mp hp with hp1 | hp1
      · rw [hp1]; exact hq
      · exact ih hnd.2 hp1

theorem inFlightLookup_inFlightErase_self {l : List (Nat × TxnState)} {t : Nat}
    (hnd : (l.map Prod.fst).Nodup) : inFlightLookup (inFlightErase l t) t = none := by
  rw [inFlightLookup_eq_none_iff]
  intro hmem
  rcases List.mem_map.mp hmem with ⟨p, hp, hpt⟩
  exact key_ne_of_mem_inFlightErase hnd hp hpt

theorem inFlightSet_map_fst (l : List (Nat × TxnState)) (t : Nat) (st : TxnState) :
    (inFlightSet l t st).map Prod.fst = l.map Prod.fst := by
  induction l with
  | nil => simp [inFlightSet]
  | cons p rest ih =>
    by_cases hp : p.1 = t
    · simp [inFlightSet, hp]
    · simp [inFlightSet, hp, ih]

theorem mem_of_mem_inFlightSet {l : List (Nat × TxnState)} {t : Nat} {st : TxnState}
    {p : Nat × TxnState} (hp : p ∈ inFlightSet l t st) : p ∈ l ∨ p = (t, st) := by
  induction l with
  | nil => simp [inFlightSet] at hp
  | cons q rest ih =>
    by_cases hq : q.1 = t
    · simp only [inFlightSet, if_pos hq] at hp
      rcases List.mem_cons.mp hp with hp1 | hp1
      · right; exact hp1
      · left; exact List.mem_cons_of_mem _ hp1
    · simp only [inFlightSet, if_neg hq] at hp
      rcases List.mem_cons.mp hp with hp1 | hp1
      · left; exact hp1 ▸ List.mem_cons_self q rest
      · rcases ih hp1 with hh | hh
        · left; exact List.mem_cons_of_mem _ hh
        · right; exact hh

theorem inFlightMinKey_eq_none_iff (l : List (Nat × TxnState)) :
    inFlightMinKey l = none ↔ l = [] := by
  cases l with
  | nil => simp [inFlightMinKey]
  | cons p rest =>
    simp only [inFlightMinKey]
    cases inFlightMinKey rest <;> simp

theorem inFlightMinKey_le {l : List (Nat × TxnState)} {p : Nat × TxnState}
    (hp : p ∈ l) : ∃ e, inFlightMinKey l = some e ∧ e ≤ p.1 := by
  induction l with
  | nil => simp at hp
  | cons q rest ih =>
    rcases List.mem_cons.mp hp with hp1 | hp1
    · rcases hq : inFlightMinKey rest with _ | e
      · exact ⟨q.1, by simp [inFlightMinKey, hq], by rw [hp1]⟩
      · exact ⟨min q.1 e, by simp [inFlightMinKey, hq], by
          rw [hp1]; exact min_le_left _ _⟩
    · rcases ih hp1 with ⟨e, he, hle⟩
      rcases hq : inFlightMinKey rest with _ | f
      · rw [hq] at he; cases he
      · rw [hq] at he
        have hef : f = e := by cases he; rfl
        exact ⟨min q.1 f, by simp [inFlightMinKey, hq], by
          rw [hef]; exact le_trans (min_le_right _ _) hle⟩

theorem inFlightMinKey_mem {l : List (Nat × TxnState)} {e : Nat}
    (h : inFlightMinKey l = some e) : e ∈ l.map Prod.fst := by
  induction l generalizing e with
  | nil => simp [inFlightMinKey] at h
  | cons q rest ih =>
    simp only [inFlightMinKey] at h
    rcases hq : inFlightMinKey rest with _ | f
    · rw [hq] at h
      simp only [Option.some.injEq] at h
      simp [← h]
    · rw [hq] at h
      simp only [Option.some.injEq] at h
      rcases le_total q.1 f with hle | hle
      · rw [min_eq_left hle] at h
        simp [← h]
      · rw [min_eq_right hle] at h
        exact List.mem_cons_of_mem _ (ih (h ▸ hq))

/-! Freshness of the timestamps produced by the StartOperation retry loop. -/

theorem freshFrom_gt (l : List (Nat × TxnState)) (fuel : Nat) :
    ∀ c, c < freshFrom l c fuel := by
  induction fuel with
  | zero => intro c; simp [freshFrom]
  | succ n ih =>
    intro c
    simp only [freshFrom]
    by_cases h : (inFlightLookup l (c + 1)).isSome
    · rw [if_pos h]
      exact Nat.lt_of_succ_le (Nat.le_of_lt (ih (c + 1)))
    · rw [if_neg h]
      exact Nat.lt_succ_self c

theorem countGT_cons (p : Nat × TxnState) (rest : List (Nat × TxnState)) (c : Nat) :
    countGT (p :: rest) c = (if c < p.1 then 1 else 0) + countGT rest c := by
  rw [countGT, countGT, List.filter_cons]
  by_cases h : c < p.1 <;> simp [h, Nat.add_comm]

theorem countGT_le_length (l : List (Nat × TxnState)) (c : Nat) :
    countGT l c ≤ l.length :=
  List.length_filter_le _ l

theorem countGT_mono (l : List (Nat × TxnState)) {c d : Nat} (h : c ≤ d) :
    countGT l d ≤ countGT l c := by
  induction l with
  | nil => simp [countGT]
  | cons p rest ih =>
    rw [countGT_cons, countGT_cons]
    have : (if d < p.1 then 1 else 0) ≤ (if c < p.1 then 1 else 0) := by
      by_cases hd : d < p.1
      · rw [if_pos hd, if_pos (lt_of_le_of_lt h hd)]
      · rw [if_neg hd]
        omega
    omega

theorem countGT_lt {l : List (Nat × TxnState)} {c : Nat} {s : TxnState}
    (h : inFlightLookup l (c + 1) = some s) : countGT l (c + 1) < countGT l c := by
  induction l with
  | nil => simp [inFlightLookup] at h
  | cons p rest ih =>
    rw [countGT_cons, countGT_cons]
    by_cases hp : p.1 = c + 1
    · have e1 : (if c + 1 < p.1 then 1 else 0) = 0 := by
        rw [hp]
        simp
      have e2 : (if c < p.1 then 1 else 0) = 1 := by
        rw [hp]
        simp
      have e3 : countGT rest (c + 1) ≤ countGT rest c :=
        countGT_mono rest (Nat.le_add_right c 1)
      omega
    · simp only [inFlightLookup, if_neg hp] at h
      have hih := ih h
      have e1 : (if c + 1 < p.1 then 1 else 0) = (if c < p.1 then 1 else 0) := by
        by_cases hgt : c + 1 < p.1
        · have hc1 : c < p.1 := Nat.lt_of_succ_lt hgt
          rw [if_pos hgt, if_pos hc1]
        · have hc1 : ¬ c < p.1 := by omega
          rw [if_neg hgt, if_neg hc1]
      omega

theorem freshFrom_lookup_none (l : List (Nat × TxnState)) :
    ∀ fuel c, countGT l c < fuel → inFlightLookup l (freshFrom l c fuel) = none := by
  intro fuel
  induction fuel with
  | zero => intro c h; omega
  | succ n ih =>
    intro c h
    simp only [freshFrom]
    by_cases hl : (inFlightLookup l (c + 1)).isSome
    · rw [if_pos hl]
      rcases Option.isSome_iff_exists.mp hl with ⟨s, hs⟩
      exact ih (c + 1) (by have := countGT_lt hs; omega)
    · rw [if_neg hl]
      exact Option.not_isSome_iff_eq_none.mp hl

theorem startOperation_fresh (m : MvccManager) :
    inFlightLookup m.inFlight (m.startOperation).1 = none := by
  apply freshFrom_lookup_none
  exact Nat.lt_succ_of_le (countGT_le_length _ _)

theorem startOperationAtLatest_fresh (m : MvccManager) (err : Nat) :
    inFlightLookup m.inFlight (m.startOperationAtLatest err).1 = none := by
  apply freshFrom_lookup_none
  exact Nat.lt_succ_of_le (countGT_le_length _ _)

/-! Characterization and monotonicity lemmas for the snapshot predicate. -/

theorem isCommitted_iff (s : MvccSnapshot) (x : Nat) :
    s.isCommitted x = true ↔
      (x < s.all_committed_before ∨
        (x < s.none_committed_at_or_after ∧ x ∈ s.committed_hybrid_times)) := by
  rw [MvccSnapshot.isCommitted, MvccSnapshot.isCommittedFallback]
  by_cases h1 : x < s.all_committed_before
  · rw [if_pos h1]
    simp [h1]
  · rw [if_neg h1]
    by_cases h2 : s.none_committed_at_or_after ≤ x
    · rw [if_pos h2]
      constructor
      · intro hc
        exact absurd hc (by simp)
      · intro hc
        rcases hc with hc | hc
        · omega
        · omega
    · rw [if_neg h2]
      simp only [decide_eq_true_eq]
      constructor
      · intro hm
        exact Or.inr ⟨by omega, hm⟩
      · intro hc
        rcases hc with hc | hc
        · omega
        · exact hc.2

theorem isCommitted_eq_false_iff (s : MvccSnapshot) (x : Nat) :
    s.isCommitted x = false ↔
      (s.all_committed_before ≤ x ∧
        (s.none_committed_at_or_after ≤ x ∨ x ∉ s.committed_hybrid_times)) := by
  rw [← Bool.not_eq_true, isCommitted_iff]
  constructor
  · intro h
    push_neg at h
    refine ⟨by omega, ?_⟩
    by_cases hm : x ∈ s.committed_hybrid_times
    · refine Or.inl ?_
      by_contra hlt
      exact (h.2 (by omega)) hm
    · exact Or.inr hm
  · intro h hc
    rcases hc with hc | hc
    · omega
    · rcases h.2 with h2 | h2
      · omega
      · exact h2 hc.2

theorem acb_le_of_not_committed {s : MvccSnapshot} {x : Nat}
    (h : s.isCommitted x = false) : s.all_committed_before ≤ x :=
  ((isCommitted_eq_false_iff s x).mp h).1

theorem not_mem_of_not_committed {s : MvccSnapshot} {x : Nat}
    (h : s.isCommitted x = false)
    (hn : ∀ e ∈ s.committed_hybrid_times, e < s.none_committed_at_or_after) :
    x ∉ s.committed_hybrid_times := by
  intro hmem
  rcases ((isCommitted_eq_false_iff s x).mp h).2 with h2 | h2
  · have := hn x hmem
    omega
  · exact h2 hmem

theorem committed_of_mem {s : MvccSnapshot} {x : Nat}
    (hmem : x ∈ s.committed_hybrid_times)
    (hn : ∀ e ∈ s.committed_hybrid_times, e < s.none_committed_at_or_after) :
    s.isCommitted x = true :=
  (isCommitted_iff s x).mpr (Or.inr ⟨hn x hmem, hmem⟩)

theorem addCommitted_acb (s : MvccSnapshot) (t : Nat) :
    (s.addCommittedHybridTime t).all_committed_before = s.all_committed_before := by
  rw [MvccSnapshot.addCommittedHybridTime]
  split <;> rfl

theorem addCommitted_ncaa (s : MvccSnapshot) (t : Nat) :
    (s.addCommittedHybridTime t).none_committed_at_or_after =
      if s.isCommitted t = true then s.none_committed_at_or_after
      else if s.none_committed_at_or_after ≤ t then t + 1
      else s.none_committed_at_or_after := by
  by_cases hc : s.isCommitted t = true
  · rw [MvccSnapshot.addCommittedHybridTime, if_pos hc, if_pos hc]
  · rw [MvccSnapshot.addCommittedHybridTime, if_neg hc, if_neg hc]

theorem addCommitted_list (s : MvccSnapshot) (t : Nat) :
    (s.addCommittedHybridTime t).committed_hybrid_times =
      if s.isCommitted t = true then s.committed_hybrid_times
      else s.committed_hybrid_times ++ [t] := by
  by_cases hc : s.isCommitted t = true
  · rw [MvccSnapshot.addCommittedHybridTime, if_pos hc, if_pos hc]
  · rw [MvccSnapshot.addCommittedHybridTime, if_neg hc, if_neg hc]

theorem addCommitted_ncaa_le (s : MvccSnapshot) (t : Nat) :
    s.none_committed_at_or_after ≤
      (s.addCommittedHybridTime t).none_committed_at_or_after := by
  rw [addCommitted_ncaa]
  by_cases hc : s.isCommitted t = true
  · rw [if_pos hc]
  · rw [if_neg hc]
    by_cases h2 : s.none_committed_at_or_after ≤ t
    · rw [if_pos h2]
      omega
    · rw [if_neg h2]

theorem mem_addCommitted {s : MvccSnapshot} {t x : Nat}
    (h : x ∈ (s.addCommittedHybridTime t).committed_hybrid_times) :
    x ∈ s.committed_hybrid_times ∨ x = t := by
  rw [addCommitted_list] at h
  by_cases hc : s.isCommitted t = true
  · rw [if_pos hc] at h
    exact Or.inl h
  · rw [if_neg hc] at h
    simpa using h

theorem addCommitted_lt_ncaa {s : MvccSnapshot} (t : Nat)
    (hn : ∀ e ∈ s.committed_hybrid_times, e < s.none_committed_at_or_after) :
    ∀ e ∈ (s.addCommittedHybridTime t).committed_hybrid_times,
      e < (s.addCommittedHybridTime t).none_committed_at_or_after := by
  intro e he
  rw [addCommitted_list] at he
  rw [addCommitted_ncaa]
  by_cases hc : s.isCommitted t = true
  · rw [if_pos hc] at he
    rw [if_pos hc]
    exact hn e he
  · rw [if_neg hc] at he
    rw [if_neg hc]
    simp only [List.mem_append, List.mem_singleton] at he
    rcases he with he | he
    · have := hn e he
      by_cases h2 : s.none_committed_at_or_after ≤ t
      · rw [if_pos h2]
        omega
      · rw [if_neg h2]
        omega
    · subst he
      by_cases h2 : s.none_committed_at_or_after ≤ e
      · rw [if_pos h2]
        omega
      · rw [if_neg h2]
        omega

theorem isCommitted_addCommitted_self (s : MvccSnapshot) (t : Nat) :
    (s.addCommittedHybridTime t).isCommitted t = true := by
  by_cases hc : s.isCommitted t = true
  · rw [MvccSnapshot.addCommittedHybridTime, if_pos hc]
    exact hc
  · rw [isCommitted_iff, addCommitted_acb, addCommitted_ncaa, addCommitted_list,
      if_neg hc, if_neg hc]
    right
    constructor
    · by_cases h2 : s.none_committed_at_or_after ≤ t
      · rw [if_pos h2]
        omega
      · rw [if_neg h2]
        omega
    · simp

theorem isCommitted_addCommitted_mono {s : MvccSnapshot} {x : Nat} (t : Nat)
    (h : s.isCommitted x = true) :
    (s.addCommittedHybridTime t).isCommitted x = true := by
  by_cases hc : s.isCommitted t = true
  · rw [MvccSnapshot.addCommittedHybridTime, if_pos hc]
    exact h
  · rw [isCommitted_iff, addCommitted_acb, addCommitted_ncaa, addCommitted_list,
      if_neg hc, if_neg hc]
    rw [isCommitted_iff] at h
    rcases h with h | h
    · exact Or.inl h
    · right
      refine ⟨?_, List.mem_append_left _ h.2⟩
      have := h.1
      by_cases h2 : s.none_committed_at_or_after ≤ t
      · rw [if_pos h2]
        omega
      · rw [if_neg h2]
        omega

theorem coalesce_acb (s : MvccSnapshot) (a : Nat) :
    (s.coalesce a).all_committed_before = a := rfl

theorem coalesce_ncaa (s : MvccSnapshot) (a : Nat) :
    (s.coalesce a).none_committed_at_or_after = s.none_committed_at_or_after := rfl

theorem mem_coalesce {s : MvccSnapshot} {a x : Nat} :
    x ∈ (s.coalesce a).committed_hybrid_times ↔
      x ∈ s.committed_hybrid_times ∧ a ≤ x := by
  show x ∈ s.committed_hybrid_times.filter (fun v => a ≤ v) ↔ _
  rw [List.mem_filter]
  simp

theorem isCommitted_coalesce_mono {s : MvccSnapshot} {x acb2 : Nat}
    (hle : s.all_committed_before ≤ acb2)
    (h : s.isCommitted x = true) : (s.coalesce acb2).isCommitted x = true := by
  rw [isCommitted_iff] at h
  rw [isCommitted_iff, coalesce_acb, coalesce_ncaa]
  by_cases h1 : x < acb2
  · exact Or.inl h1
  · right
    rcases h with h | h
    · omega
    · exact ⟨h.1, mem_coalesce.mpr ⟨h.2, by omega⟩⟩

/-! Characterizations of the manager operations. -/

theorem commitOperationUnlocked_eq_some {m : MvccManager} {t : Nat}
    {r : Bool × MvccManager} (h : m.commitOperationUnlocked t = some r) :
    t ≤ m.clock ∧ inFlightLookup m.inFlight t = some .applying ∧
      r.1 = decide (inFlightMinKey m.inFlight = some t) ∧
      r.2 = { m with
          inFlight := inFlightErase m.inFlight t
          cur_snap := m.cur_snap.addCommittedHybridTime t } := by
  rw [MvccManager.commitOperationUnlocked] at h
  by_cases hck : m.clockIsAfter t = true
  · rw [if_neg (by simp [hck])] at h
    rcases hl : inFlightLookup m.inFlight t with _ | st
    · rw [hl] at h
      cases h
    · rw [hl] at h
      cases st
      · cases h
      · simp only [Option.some.injEq] at h
        refine ⟨by simpa [MvccManager.clockIsAfter] using hck, by simp [hl], ?_, ?_⟩
        · rw [← h]
        · rw [← h]
  · rw [if_pos (by simpa using hck)] at h
    cases h

theorem commitOperationUnlocked_isSome {m : MvccManager} {t : Nat}
    (hck : t ≤ m.clock) (hl : inFlightLookup m.inFlight t = some .applying) :
    m.commitOperationUnlocked t =
      some (decide (inFlightMinKey m.inFlight = some t),
        { m with
          inFlight := inFlightErase m.inFlight t
          cur_snap := m.cur_snap.addCommittedHybridTime t }) := by
  rw [MvccManager.commitOperationUnlocked]
  rw [if_neg (by simp [MvccManager.clockIsAfter, hck]), hl]

theorem adjustCleanTime_clock (m : MvccManager) :
    m.adjustCleanTime.clock = m.clock := rfl

theorem adjustCleanTime_inFlight (m : MvccManager) :
    m.adjustCleanTime.inFlight = m.inFlight := rfl

theorem adjustCleanTime_no_new (m : MvccManager) :
    m.adjustCleanTime.no_new_transactions_at_or_before =
      m.no_new_transactions_at_or_before := rfl

theorem adjustCleanTime_snap (m : MvccManager) :
    m.adjustCleanTime.cur_snap = m.cur_snap.coalesce
      (match inFlightMinKey m.inFlight with
        | some e =>
          if e < m.no_new_transactions_at_or_before then e
          else m.no_new_transactions_at_or_before + 1
        | none => m.no_new_transactions_at_or_before + 1) := rfl

/-- Clock is never moved backward by any manager call. -/
theorem applyOp_clock_mono {m m1 : MvccManager} {op : MgrOp}
    (h : m.applyOp op = some m1) : m.clock ≤ m1.clock := by
  cases op with
  | startOp =>
    simp only [MvccManager.applyOp, Option.some.injEq] at h
    rw [← h]
    exact Nat.le_of_lt (freshFrom_gt _ _ _)
  | startAtLatest err =>
    simp only [MvccManager.applyOp, Option.some.injEq] at h
    rw [← h]
    exact Nat.le_succ _
  | startAtHybridTime hh =>
    simp only [MvccManager.applyOp] at h
    rcases hs : m.startOperationAtHybridTime hh with m2 | m2 <;> rw [hs] at h
    · simp only [Option.some.injEq] at h
      rw [← h]
    · simp only [Option.some.injEq] at h
      rw [MvccManager.startOperationAtHybridTime] at hs
      rw [← h]
      split at hs
      · cases hs
      · split at hs
        · cases hs
        · simp only [Except.ok.injEq] at hs
          rw [← hs]
  | startApplying hh =>
    simp only [MvccManager.applyOp, MvccManager.startApplyingOperation] at h
    rcases hl : inFlightLookup m.inFlight hh with _ | st <;> rw [hl] at h
    · cases h
    · cases st
      · simp only [Option.some.injEq] at h
        rw [← h]
      · cases h
  | commitOp hh =>
    simp only [MvccManager.applyOp, MvccManager.commitOperation] at h
    rcases hu : m.commitOperationUnlocked hh with _ | r <;> rw [hu] at h
    · cases h
    · simp only [Option.map_some', Option.some.injEq] at h
      have hr := (commitOperationUnlocked_eq_some hu).2.2.2
      rw [← h]
      split
      · rw [adjustCleanTime_clock]
        rw [hr]
      · rw [hr]
  | offlineCommitOp hh =>
    simp only [MvccManager.applyOp, MvccManager.offlineCommitOperation] at h
    rcases hu : m.commitOperationUnlocked hh with _ | r <;> rw [hu] at h
    · cases h
    · simp only [Option.map_some', Option.some.injEq] at h
      have hr := (commitOperationUnlocked_eq_some hu).2.2.2
      rw [← h]
      split
      · rw [adjustCleanTime_clock, hr]
      · rw [hr]
  | offlineAdjust hh =>
    simp only [MvccManager.applyOp, Option.some.injEq] at h
    rw [← h, MvccManager.offlineAdjustSafeTime, adjustCleanTime_clock]
  | abortOp hh =>
    simp only [MvccManager.applyOp, MvccManager.abortOperation] at h
    rcases hl : inFlightLookup m.inFlight hh with _ | st <;> rw [hl] at h
    · cases h
    · cases st
      · simp only [Option.some.injEq] at h
        rw [← h]
      · cases h
  | clockUpdateOp hh =>
    simp only [MvccManager.applyOp, Option.some.injEq] at h
    rw [← h, MvccManager.clockUpdate]
    exact Nat.le_max_left _ _
  | readMaxSafeTime =>
    simp only [MvccManager.applyOp, Option.some.injEq] at h
    rw [← h, MvccManager.getMaxSafeTimeToReadAt]
    split
    · exact Nat.le_succ _
    · exact Nat.le_refl _

/-! Reachable-state invariant.  It holds for every state reachable from a
fresh manager by histories that never call OfflineAdjustSafeTime (the one
operation that moves the watermark without regard to what is in flight). -/

theorem inv_create : Inv MvccManager.create := by
  constructor <;> simp [MvccManager.create, MvccSnapshot.initial,
    MvccSnapshot.isCommitted, kMinHybridTime, kInitialHybridTime]

/-- The watermark chosen by AdjustCleanTime, with its basic bounds. -/
theorem adjustCleanTime_acb_facts {m : MvccManager} (hm : Inv m) :
    m.cur_snap.all_committed_before ≤
        m.adjustCleanTime.cur_snap.all_committed_before ∧
      m.adjustCleanTime.cur_snap.all_committed_before ≤
        m.no_new_transactions_at_or_before + 1 ∧
      ∀ p ∈ m.inFlight,
        m.adjustCleanTime.cur_snap.all_committed_before ≤ p.1 := by
  rw [adjustCleanTime_snap, coalesce_acb]
  rcases hmin : inFlightMinKey m.inFlight with _ | e
  · dsimp only
    refine ⟨hm.acbLe, Nat.le_refl _, ?_⟩
    intro p hp
    rw [(inFlightMinKey_eq_none_iff m.inFlight).mp hmin] at hp
    simp at hp
  · have hemem : e ∈ m.inFlight.map Prod.fst := inFlightMinKey_mem hmin
    rcases List.mem_map.mp hemem with ⟨q, hq, hqe⟩
    have hacb_e : m.cur_snap.all_committed_before ≤ e := by
      have := acb_le_of_not_committed (hm.notCommitted q hq)
      omega
    have hmin_le : ∀ p ∈ m.inFlight, e ≤ p.1 := by
      intro p hp
      rcases inFlightMinKey_le hp with ⟨f, hf, hfle⟩
      rw [hmin] at hf
      cases hf
      exact hfle
    dsimp only
    by_cases hcase : e < m.no_new_transactions_at_or_before
    · rw [if_pos hcase]
      exact ⟨hacb_e, by omega, hmin_le⟩
    · rw [if_neg hcase]
      refine ⟨hm.acbLe, Nat.le_refl _, ?_⟩
      intro p hp
      have h1 : e ≤ p.1 := hmin_le p hp
      have h2 : p.1 ≠ m.no_new_transactions_at_or_before := by
        intro hcontra
        have hf := hm.notCommitted p hp
        rw [hcontra] at hf
        rw [hm.noNewCommitted] at hf
        cases hf
      omega

theorem inv_adjustCleanTime {m : MvccManager} (hm : Inv m) :
    Inv m.adjustCleanTime := by
  rcases adjustCleanTime_acb_facts hm with ⟨hA1, hA2, hA3⟩
  set A := m.adjustCleanTime.cur_snap.all_committed_before with hAdef
  have hsnap : m.adjustCleanTime.cur_snap = m.cur_snap.coalesce A := by
    rw [adjustCleanTime_snap, hAdef, adjustCleanTime_snap, coalesce_acb]
  constructor
  · rw [adjustCleanTime_inFlight]
    exact hm.nodup
  · rw [adjustCleanTime_inFlight]
    exact hm.pos
  · rw [adjustCleanTime_inFlight]
    intro p hp
    rw [hsnap, isCommitted_eq_false_iff, coalesce_acb, coalesce_ncaa]
    refine ⟨hA3 p hp, ?_⟩
    rcases ((isCommitted_eq_false_iff _ _).mp (hm.notCommitted p hp)).2 with h2 | h2
    · exact Or.inl h2
    · refine Or.inr ?_
      intro hmem
      exact h2 (mem_coalesce.mp hmem).1
  · rw [hsnap, coalesce_ncaa]
    intro e he
    exact hm.listLtNcaa e (mem_coalesce.mp he).1
  · rw [hsnap, adjustCleanTime_clock]
    intro e he
    exact hm.listLeClock e (mem_coalesce.mp he).1
  · rw [hsnap, adjustCleanTime_no_new]
    exact isCommitted_coalesce_mono hA1 hm.noNewCommitted
  · rw [adjustCleanTime_no_new, adjustCleanTime_clock]
    exact hm.noNewLeClock
  · rw [hsnap, coalesce_acb, adjustCleanTime_no_new]
    exact hA2
  · rw [hsnap, coalesce_acb]
    have := hm.acbPos
    omega

theorem inv_commitCore {m : MvccManager} {t : Nat} (hm : Inv m)
    (hck : t ≤ m.clock) (_hl : inFlightLookup m.inFlight t = some .applying) :
    Inv { m with
      inFlight := inFlightErase m.inFlight t
      cur_snap := m.cur_snap.addCommittedHybridTime t } := by
  constructor
  · exact nodup_inFlightErase t hm.nodup
  · intro p hp
    exact hm.pos p (mem_of_mem_inFlightErase hp)
  · intro p hp
    have hpl : p ∈ m.inFlight := mem_of_mem_inFlightErase hp
    have hne : p.1 ≠ t := key_ne_of_mem_inFlightErase hm.nodup hp
    have hold : m.cur_snap.isCommitted p.1 = false := hm.notCommitted p hpl
    have hnotmem : p.1 ∉ m.cur_snap.committed_hybrid_times :=
      not_mem_of_not_committed hold hm.listLtNcaa
    rw [isCommitted_eq_false_iff, addCommitted_acb]
    refine ⟨acb_le_of_not_committed hold, Or.inr ?_⟩
    intro hmem
    rcases mem_addCommitted hmem with hmem | hmem
    · exact hnotmem hmem
    · exact hne hmem
  · exact addCommitted_lt_ncaa t hm.listLtNcaa
  · intro e he
    rcases mem_addCommitted he with he | he
    · exact hm.listLeClock e he
    · rw [he]
      exact hck
  · exact isCommitted_addCommitted_mono t hm.noNewCommitted
  · exact hm.noNewLeClock
  · rw [addCommitted_acb]
    exact hm.acbLe
  · rw [addCommitted_acb]
    exact hm.acbPos

theorem inv_setNoNewMax {m : MvccManager} {t : Nat} (hm : Inv m)
    (hcom : m.cur_snap.isCommitted t = true) (htc : t ≤ m.clock) :
    Inv { m with
      no_new_transactions_at_or_before :=
        max m.no_new_transactions_at_or_before t } := by
  constructor
  · exact hm.nodup
  · exact hm.pos
  · exact hm.notCommitted
  · exact hm.listLtNcaa
  · exact hm.listLeClock
  · rcases Nat.le_total m.no_new_transactions_at_or_before t with hh | hh
    · rw [Nat.max_eq_right hh]
      exact hcom
    · rw [Nat.max_eq_left hh]
      exact hm.noNewCommitted
  · have := hm.noNewLeClock
    simp only
    omega
  · have := hm.acbLe
    simp only
    omega
  · exact hm.acbPos

theorem inv_commitOperation {m m1 : MvccManager} {t : Nat} (hm : Inv m)
    (h : m.commitOperation t = some m1) : Inv m1 := by
  rw [MvccManager.commitOperation] at h
  rcases hu : m.commitOperationUnlocked t with _ | r
  · rw [hu] at h
    cases h
  · rw [hu] at h
    simp only [Option.map_some', Option.some.injEq] at h
    rcases commitOperationUnlocked_eq_some hu with ⟨hck, hl, _, hr2⟩
    have hcore : Inv r.2 := by
      rw [hr2]
      exact inv_commitCore hm hck hl
    have hcom : r.2.cur_snap.isCommitted t = true := by
      rw [hr2]
      exact isCommitted_addCommitted_self _ _
    have htc : t ≤ r.2.clock := by
      rw [hr2]
      exact hck
    have hmax : Inv { r.2 with
        no_new_transactions_at_or_before :=
          max r.2.no_new_transactions_at_or_before t } :=
      inv_setNoNewMax hcore hcom htc
    rw [← h]
    split
    · exact inv_adjustCleanTime hmax
    · exact hmax

theorem inv_offlineCommitOperation {m m1 : MvccManager} {t : Nat} (hm : Inv m)
    (h : m.offlineCommitOperation t = some m1) : Inv m1 := by
  rw [MvccManager.offlineCommitOperation] at h
  rcases hu : m.commitOperationUnlocked t with _ | r
  · rw [hu] at h
    cases h
  · rw [hu] at h
    simp only [Option.map_some', Option.some.injEq] at h
    rcases commitOperationUnlocked_eq_some hu with ⟨hck, hlk, _, hr2⟩
    have hcore : Inv r.2 := by
      rw [hr2]
      exact inv_commitCore hm hck hlk
    rw [← h]
    split
    · exact inv_adjustCleanTime hcore
    · exact hcore

theorem inv_insertFresh {m : MvccManager} (hm : Inv m) {v newClock : Nat}
    (hfresh : inFlightLookup m.inFlight v = none)
    (hv : m.clock < v) (hc1 : m.clock ≤ newClock) (_hc2 : newClock ≤ v) :
    Inv { m with clock := newClock, inFlight := (v, .reserved) :: m.inFlight } := by
  have hnotmem : v ∉ m.inFlight.map Prod.fst :=
    (inFlightLookup_eq_none_iff _ _).mp hfresh
  constructor
  · simp only [List.map_cons]
    exact List.nodup_cons.mpr ⟨hnotmem, hm.nodup⟩
  · intro p hp
    rcases List.mem_cons.mp hp with hp1 | hp1
    · rw [hp1]
      simp only
      omega
    · exact hm.pos p hp1
  · intro p hp
    rcases List.mem_cons.mp hp with hp1 | hp1
    · rw [hp1]
      simp only
      rw [isCommitted_eq_false_iff]
      have h1 := hm.acbLe
      have h2 := hm.noNewLeClock
      refine ⟨by omega, Or.inr ?_⟩
      intro hmem
      have := hm.listLeClock v hmem
      omega
    · exact hm.notCommitted p hp1
  · exact hm.listLtNcaa
  · intro e he
    have := hm.listLeClock e he
    simp only
    omega
  · exact hm.noNewCommitted
  · have := hm.noNewLeClock
    simp only
    omega
  · exact hm.acbLe
  · exact hm.acbPos

theorem inv_startOperation {m : MvccManager} (hm : Inv m) :
    Inv (m.startOperation).2 := by
  have hv : m.clock < (m.startOperation).1 := freshFrom_gt _ _ _
  have hfresh := startOperation_fresh m
  exact inv_insertFresh hm hfresh hv (Nat.le_of_lt hv) (Nat.le_refl _)

theorem inv_startOperationAtLatest {m : MvccManager} (err : Nat) (hm : Inv m) :
    Inv (m.startOperationAtLatest err).2 := by
  have hv : m.clock + err <
      freshFrom m.inFlight (m.clock + err) (m.inFlight.length + 1) :=
    freshFrom_gt _ _ _
  have hfresh : inFlightLookup m.inFlight
      (freshFrom m.inFlight (m.clock + err) (m.inFlight.length + 1)) = none :=
    startOperationAtLatest_fresh m err
  exact inv_insertFresh hm hfresh (by omega) (Nat.le_succ _) (by omega)

theorem inv_startOperationAtHybridTime {m m1 : MvccManager} {h : Nat} (hm : Inv m)
    (hr : m.startOperationAtHybridTime h = .ok m1) : Inv m1 := by
  rw [MvccManager.startOperationAtHybridTime] at hr
  by_cases hg1 : m.cur_snap.isCommitted h = true
  · rw [if_pos (by simpa using hg1)] at hr
    cases hr
  · rw [if_neg (by simpa using hg1)] at hr
    by_cases hg2 : (inFlightLookup m.inFlight h).isSome
    · rw [if_pos hg2] at hr
      cases hr
    · rw [if_neg hg2] at hr
      simp only [Except.ok.injEq] at hr
      rw [← hr]
      have hfalse : m.cur_snap.isCommitted h = false := by
        simpa using hg1
      constructor
      · simp only [List.map_cons]
        refine List.nodup_cons.mpr ⟨?_, hm.nodup⟩
        exact (inFlightLookup_eq_none_iff _ _).mp
          (Option.not_isSome_iff_eq_none.mp hg2)
      · intro p hp
        rcases List.mem_cons.mp hp with hp1 | hp1
        · rw [hp1]
          simp only
          have h1 := acb_le_of_not_committed hfalse
          have h2 := hm.acbPos
          omega
        · exact hm.pos p hp1
      · intro p hp
        rcases List.mem_cons.mp hp with hp1 | hp1
        · rw [hp1]
          exact hfalse
        · exact hm.notCommitted p hp1
      · exact hm.listLtNcaa
      · exact hm.listLeClock
      · exact hm.noNewCommitted
      · exact hm.noNewLeClock
      · exact hm.acbLe
      · exact hm.acbPos

theorem inv_startApplyingOperation {m m1 : MvccManager} {t : Nat} (hm : Inv m)
    (h : m.startApplyingOperation t = some m1) : Inv m1 := by
  rw [MvccManager.startApplyingOperation] at h
  rcases hl : inFlightLookup m.inFlight t with _ | st <;> rw [hl] at h
  · cases h
  · cases st
    · simp only [Option.some.injEq] at h
      rw [← h]
      have htmem : (t, TxnState.reserved) ∈ m.inFlight := mem_of_inFlightLookup hl
      constructor
      · rw [inFlightSet_map_fst]
        exact hm.nodup
      · intro p hp
        rcases mem_of_mem_inFlightSet hp with hp1 | hp1
        · exact hm.pos p hp1
        · rw [hp1]
          exact hm.pos (t, TxnState.reserved) htmem
      · intro p hp
        rcases mem_of_mem_inFlightSet hp with hp1 | hp1
        · exact hm.notCommitted p hp1
        · rw [hp1]
          exact hm.notCommitted (t, TxnState.reserved) htmem
      · exact hm.listLtNcaa
      · exact hm.listLeClock
      · exact hm.noNewCommitted
      · exact hm.noNewLeClock
      · exact hm.acbLe
      · exact hm.acbPos
    · cases h

theorem inv_abortOperation {m m1 : MvccManager} {t : Nat} (hm : Inv m)
    (h : m.abortOperation t = some m1) : Inv m1 := by
  rw [MvccManager.abortOperation] at h
  rcases hl : inFlightLookup m.inFlight t with _ | st <;> rw [hl] at h
  · cases h
  · cases st
    · simp only [Option.some.injEq] at h
      rw [← h]
      constructor
      · exact nodup_inFlightErase t hm.nodup
      · intro p hp
        exact hm.pos p (mem_of_mem_inFlightErase hp)
      · intro p hp
        exact hm.notCommitted p (mem_of_mem_inFlightErase hp)
      · exact hm.listLtNcaa
      · exact hm.listLeClock
      · exact hm.noNewCommitted
      · exact hm.noNewLeClock
      · exact hm.acbLe
      · exact hm.acbPos
    · cases h

theorem inv_clockGrow {m : MvccManager} (hm : Inv m) {newClock : Nat}
    (hc : m.clock ≤ newClock) : Inv { m with clock := newClock } := by
  constructor
  · exact hm.nodup
  · exact hm.pos
  · exact hm.notCommitted
  · exact hm.listLtNcaa
  · intro e he
    have := hm.listLeClock e he
    simp only
    omega
  · exact hm.noNewCommitted
  · have := hm.noNewLeClock
    simp only
    omega
  · exact hm.acbLe
  · exact hm.acbPos

theorem inv_applyOp {m m1 : MvccManager} {op : MgrOp} (hm : Inv m)
    (hop : op.isOfflineAdjust = false) (h : m.applyOp op = some m1) : Inv m1 := by
  cases op with
  | startOp =>
    simp only [MvccManager.applyOp, Option.some.injEq] at h
    rw [← h]
    exact inv_startOperation hm
  | startAtLatest err =>
    simp only [MvccManager.applyOp, Option.some.injEq] at h
    rw [← h]
    exact inv_startOperationAtLatest err hm
  | startAtHybridTime hh =>
    simp only [MvccManager.applyOp] at h
    rcases hs : m.startOperationAtHybridTime hh with m2 | m2 <;> rw [hs] at h
    · simp only [Option.some.injEq] at h
      rw [← h]
      exact hm
    · simp only [Option.some.injEq] at h
      rw [← h]
      exact inv_startOperationAtHybridTime hm hs
  | startApplying hh =>
    exact inv_startApplyingOperation hm h
  | commitOp hh =>
    exact inv_commitOperation hm h
  | offlineCommitOp hh =>
    exact inv_offlineCommitOperation hm h
  | offlineAdjust hh =>
    simp [MgrOp.isOfflineAdjust] at hop
  | abortOp hh =>
    exact inv_abortOperation hm h
  | clockUpdateOp hh =>
    simp only [MvccManager.applyOp, Option.some.injEq] at h
    rw [← h]
    exact inv_clockGrow hm (Nat.le_max_left _ _)
  | readMaxSafeTime =>
    simp only [MvccManager.applyOp, MvccManager.getMaxSafeTimeToReadAt] at h
    by_cases he : m.inFlight.isEmpty
    · rw [if_pos he] at h
      simp only [MvccManager.clockNow, Option.some.injEq] at h
      rw [← h]
      exact inv_clockGrow hm (Nat.le_succ _)
    · rw [if_neg he] at h
      simp only [Option.some.injEq] at h
      rw [← h]
      exact hm

theorem inv_runOps {ops : List MgrOp} :
    ∀ {m m1 : MvccManager}, Inv m →
      (ops.all fun op => !op.isOfflineAdjust) = true →
      runOps m ops = some m1 → Inv m1 := by
  induction ops with
  | nil =>
    intro m m1 hm _ h
    simp only [runOps, Option.some.injEq] at h
    rw [← h]
    exact hm
  | cons op rest ih =>
    intro m m1 hm hops h
    rw [List.all_cons, Bool.and_eq_true] at hops
    have hops1 : op.isOfflineAdjust = false := by
      have := hops.1
      simpa using this
    simp only [runOps] at h
    rcases ha : m.applyOp op with _ | m2 <;> rw [ha] at h
    · cases h
    · exact ih (inv_applyOp hm hops1 ha) hops.2 h

/-! Behaviour of CommitOperation, OfflineCommitOperation, AbortOperation and
the wait primitive, as standalone lemmas used by the claim theorems. -/

theorem isCommitted_clean (t x : Nat) :
    (MvccSnapshot.clean t).isCommitted x = decide (x < t) := by
  simp only [MvccSnapshot.clean, MvccSnapshot.isCommitted,
    MvccSnapshot.isCommittedFallback]
  by_cases h1 : x < t
  · rw [if_pos h1]
    simp [h1]
  · rw [if_neg h1, if_pos (by omega)]
    simp [h1]

theorem commitOperation_eq_some {m m1 : MvccManager} {t : Nat}
    (h : m.commitOperation t = some m1) :
    t ≤ m.clock ∧ inFlightLookup m.inFlight t = some .applying ∧
      m1 = (if inFlightMinKey m.inFlight = some t then
          MvccManager.adjustCleanTime
            { m with
              inFlight := inFlightErase m.inFlight t
              no_new_transactions_at_or_before :=
                max m.no_new_transactions_at_or_before t
              cur_snap := m.cur_snap.addCommittedHybridTime t }
        else
          { m with
            inFlight := inFlightErase m.inFlight t
            no_new_transactions_at_or_before :=
              max m.no_new_transactions_at_or_before t
            cur_snap := m.cur_snap.addCommittedHybridTime t }) := by
  rw [MvccManager.commitOperation] at h
  rcases hu : m.commitOperationUnlocked t with _ | r
  · rw [hu] at h
    cases h
  · rw [hu] at h
    simp only [Option.map_some', Option.some.injEq] at h
    rcases commitOperationUnlocked_eq_some hu with ⟨hck, hl, hr1, hr2⟩
    refine ⟨hck, hl, ?_⟩
    rw [← h]
    by_cases hmin : inFlightMinKey m.inFlight = some t
    · rw [if_pos hmin]
      rw [if_pos (by
        constructor
        · rw [hr1]
          simp [hmin]
        · rw [hr2]
          simp only
          exact Nat.le_max_right _ _)]
      rw [hr2]
    · rw [if_neg hmin]
      rw [if_neg (by
        intro hcontra
        rcases hcontra with ⟨hc1, _⟩
        rw [hr1] at hc1
        simp at hc1
        exact hmin hc1)]
      rw [hr2]

theorem offlineCommitOperation_eq_some {m m1 : MvccManager} {t : Nat}
    (h : m.offlineCommitOperation t = some m1) :
    t ≤ m.clock ∧ inFlightLookup m.inFlight t = some .applying ∧
      m1 = (if inFlightMinKey m.inFlight = some t ∧
            t ≤ m.no_new_transactions_at_or_before then
          MvccManager.adjustCleanTime
            { m with
              inFlight := inFlightErase m.inFlight t
              cur_snap := m.cur_snap.addCommittedHybridTime t }
        else
          { m with
            inFlight := inFlightErase m.inFlight t
            cur_snap := m.cur_snap.addCommittedHybridTime t }) := by
  rw [MvccManager.offlineCommitOperation] at h
  rcases hu : m.commitOperationUnlocked t with _ | r
  · rw [hu] at h
    cases h
  · rw [hu] at h
    simp only [Option.map_some', Option.some.injEq] at h
    rcases commitOperationUnlocked_eq_some hu with ⟨hck, hl, hr1, hr2⟩
    refine ⟨hck, hl, ?_⟩
    rw [← h]
    by_cases hmin : inFlightMinKey m.inFlight = some t ∧
        t ≤ m.no_new_transactions_at_or_before
    · rw [if_pos hmin]
      rw [if_pos (by
        refine ⟨by rw [hr1]; simp [hmin.1], ?_⟩
        rw [hr2]
        exact hmin.2)]
      rw [hr2]
    · rw [if_neg hmin]
      rw [if_neg (by
        intro hcontra
        rcases hcontra with ⟨hc1, hc2⟩
        rw [hr1] at hc1
        simp at hc1
        rw [hr2] at hc2
        exact hmin ⟨hc1, hc2⟩)]
      rw [hr2]

theorem abortOperation_eq_some {m m1 : MvccManager} {t : Nat}
    (h : m.abortOperation t = some m1) :
    inFlightLookup m.inFlight t = some .reserved ∧
      m1 = { m with inFlight := inFlightErase m.inFlight t } := by
  rw [MvccManager.abortOperation] at h
  rcases hl : inFlightLookup m.inFlight t with _ | st <;> rw [hl] at h
  · cases h
  · cases st
    · simp only [Option.some.injEq] at h
      exact ⟨rfl, h.symm⟩
    · cases h

/-- Aborting never changes the snapshot (neither the watermark nor the
committed set), and never raises the safe time. -/
theorem abortOperation_snap {m m1 : MvccManager} {t : Nat}
    (h : m.abortOperation t = some m1) :
    m1.cur_snap = m.cur_snap ∧
      m1.no_new_transactions_at_or_before =
        m.no_new_transactions_at_or_before := by
  rcases abortOperation_eq_some h with ⟨_, hm1⟩
  rw [hm1]
  exact ⟨rfl, rfl⟩

/-- Committing a non-earliest operation: the watermark does not move, the
timestamp becomes a hole in the committed set, and it leaves the in-flight
map. -/
theorem commitOperation_not_earliest {m m1 : MvccManager} {t : Nat} (hm : Inv m)
    (h : m.commitOperation t = some m1)
    (hne : inFlightMinKey m.inFlight ≠ some t) :
    m1.cur_snap.all_committed_before = m.cur_snap.all_committed_before ∧
      t ∈ m1.cur_snap.committed_hybrid_times ∧
      inFlightLookup m1.inFlight t = none ∧
      m1.cur_snap.isCommitted t = true := by
  rcases commitOperation_eq_some h with ⟨hck, hl, hm1⟩
  rw [if_neg hne] at hm1
  have htmem : (t, TxnState.applying) ∈ m.inFlight := mem_of_inFlightLookup hl
  have hnc : m.cur_snap.isCommitted t = false := hm.notCommitted _ htmem
  rw [hm1]
  refine ⟨addCommitted_acb _ _, ?_, ?_, isCommitted_addCommitted_self _ _⟩
  · rw [addCommitted_list, if_neg (by simp [hnc])]
    simp
  · exact inFlightLookup_inFlightErase_self hm.nodup

/-- Committing the earliest in-flight operation advances the watermark past
the committed timestamp. -/
theorem commitOperation_earliest {m m1 : MvccManager} {t : Nat} (hm : Inv m)
    (h : m.commitOperation t = some m1)
    (heq : inFlightMinKey m.inFlight = some t) :
    t < m1.cur_snap.all_committed_before ∧
      inFlightLookup m1.inFlight t = none ∧
      m1.cur_snap.isCommitted t = true := by
  rcases commitOperation_eq_some h with ⟨hck, hl, hm1⟩
  rw [if_pos heq] at hm1
  have htmem : (t, TxnState.applying) ∈ m.inFlight := mem_of_inFlightLookup hl
  set mc : MvccManager := { m with
    inFlight := inFlightErase m.inFlight t
    no_new_transactions_at_or_before := max m.no_new_transactions_at_or_before t
    cur_snap := m.cur_snap.addCommittedHybridTime t } with hmc
  have hinvc : Inv mc := by
    have h1 := inv_commitCore hm hck hl
    have h2 := inv_setNoNewMax h1 (isCommitted_addCommitted_self _ _) hck
    exact h2
  have hacb : t < mc.adjustCleanTime.cur_snap.all_committed_before := by
    rw [adjustCleanTime_snap, coalesce_acb]
    rcases hmin2 : inFlightMinKey mc.inFlight with _ | e2
    · dsimp only
      have : t ≤ max m.no_new_transactions_at_or_before t := Nat.le_max_right _ _
      omega
    · dsimp only
      have hmem2 : e2 ∈ mc.inFlight.map Prod.fst := inFlightMinKey_mem hmin2
      rcases List.mem_map.mp hmem2 with ⟨q, hq, hqe⟩
      have hqm : q ∈ m.inFlight := mem_of_mem_inFlightErase hq
      have hqne : q.1 ≠ t := key_ne_of_mem_inFlightErase hm.nodup hq
      have hmin_le : t ≤ q.1 := by
        rcases inFlightMinKey_le hqm with ⟨f, hf, hfle⟩
        rw [heq] at hf
        cases hf
        exact hfle
      have hte2 : t < e2 := by omega
      have hmax : t ≤ max m.no_new_transactions_at_or_before t :=
        Nat.le_max_right _ _
      split <;> omega
  rw [hm1]
  refine ⟨hacb, ?_, ?_⟩
  · rw [adjustCleanTime_inFlight]
    exact inFlightLookup_inFlightErase_self hm.nodup
  · rcases adjustCleanTime_acb_facts hinvc with ⟨hA1, _, _⟩
    have hc : mc.cur_snap.isCommitted t = true := isCommitted_addCommitted_self _ _
    rw [adjustCleanTime_snap]
    rw [adjustCleanTime_snap, coalesce_acb] at hA1
    exact isCommitted_coalesce_mono hA1 hc

/-- With the safe time already at or above t, OfflineCommitOperation performs
exactly the transition CommitOperation performs. -/
theorem offlineCommit_state_eq_commit {m m1 m2 : MvccManager} {t : Nat}
    (hle : t ≤ m.no_new_transactions_at_or_before)
    (h1 : m.offlineCommitOperation t = some m1)
    (h2 : m.commitOperation t = some m2) : m1 = m2 := by
  rcases offlineCommitOperation_eq_some h1 with ⟨_, _, hm1⟩
  rcases commitOperation_eq_some h2 with ⟨_, _, hm2⟩
  rw [hm1, hm2, Nat.max_eq_left hle]
  by_cases hmin : inFlightMinKey m.inFlight = some t
  · rw [if_pos ⟨hmin, hle⟩, if_pos hmin]
  · rw [if_neg (by intro hc; exact hmin hc.1), if_neg hmin]

/-! A stronger invariant for histories without any offline call: the committed
set never outruns the safe time, and the watermark itself is never a committed
hole.  This is what makes GetMaxSafeTimeToReadAt exactly the top of the
contiguous committed prefix. -/

theorem invB_create : InvB MvccManager.create := by
  refine ⟨inv_create, ?_, ?_⟩ <;>
    simp [MvccManager.create, MvccSnapshot.initial]

theorem invB_of_inv_same {m m1 : MvccManager} (hm : InvB m) (hbase : Inv m1)
    (hsnap : m1.cur_snap = m.cur_snap)
    (hno : m1.no_new_transactions_at_or_before =
      m.no_new_transactions_at_or_before) : InvB m1 := by
  refine ⟨hbase, ?_, ?_⟩
  · rw [hsnap, hno]
    exact hm.listLeNoNew
  · rw [hsnap]
    exact hm.acbNotInList

/-- The watermark is strictly below any non-earliest in-flight timestamp. -/
theorem acb_lt_of_not_earliest {m : MvccManager} {t : Nat} (hm : Inv m)
    (htmem : (t, TxnState.applying) ∈ m.inFlight)
    (hne : inFlightMinKey m.inFlight ≠ some t) :
    m.cur_snap.all_committed_before < t := by
  rcases inFlightMinKey_le htmem with ⟨e0, he0, he0le⟩
  have he0ne : e0 ≠ t := by
    intro hc
    rw [hc] at he0
    exact hne he0
  rcases List.mem_map.mp (inFlightMinKey_mem he0) with ⟨q, hq, hqe⟩
  have : m.cur_snap.all_committed_before ≤ e0 := by
    have := acb_le_of_not_committed (hm.notCommitted q hq)
    omega
  omega

theorem invB_commitOperation {m m1 : MvccManager} {t : Nat} (hm : InvB m)
    (h : m.commitOperation t = some m1) : InvB m1 := by
  have hbase := inv_commitOperation hm.base h
  rcases commitOperation_eq_some h with ⟨hck, hl, hm1⟩
  have htmem : (t, TxnState.applying) ∈ m.inFlight := mem_of_inFlightLookup hl
  have hnc : m.cur_snap.isCommitted t = false := hm.base.notCommitted _ htmem
  have hlist2 : (m.cur_snap.addCommittedHybridTime t).committed_hybrid_times =
      m.cur_snap.committed_hybrid_times ++ [t] := by
    rw [addCommitted_list, if_neg (by simp [hnc])]
  have hle2 : ∀ e ∈ (m.cur_snap.addCommittedHybridTime t).committed_hybrid_times,
      e ≤ max m.no_new_transactions_at_or_before t := by
    intro e he
    rw [hlist2] at he
    rcases List.mem_append.mp he with he | he
    · have := hm.listLeNoNew e he
      have := Nat.le_max_left m.no_new_transactions_at_or_before t
      omega
    · rw [List.mem_singleton.mp he]
      exact Nat.le_max_right _ _
  by_cases hmin : inFlightMinKey m.inFlight = some t
  · rw [if_pos hmin] at hm1
    set mc : MvccManager := { m with
      inFlight := inFlightErase m.inFlight t
      no_new_transactions_at_or_before := max m.no_new_transactions_at_or_before t
      cur_snap := m.cur_snap.addCommittedHybridTime t } with hmc
    refine ⟨hbase, ?_, ?_⟩
    · rw [hm1]
      rw [adjustCleanTime_snap, adjustCleanTime_no_new]
      intro e he
      exact hle2 e (mem_coalesce.mp he).1
    · rw [hm1]
      rw [adjustCleanTime_snap, coalesce_acb]
      rcases hmin2 : inFlightMinKey mc.inFlight with _ | e2
      · dsimp only
        intro hmem
        have := hle2 _ (mem_coalesce.mp hmem).1
        omega
      · dsimp only
        rcases List.mem_map.mp (inFlightMinKey_mem hmin2) with ⟨q, hq, hqe⟩
        have hqm : q ∈ m.inFlight := mem_of_mem_inFlightErase hq
        have hqne : q.1 ≠ t := key_ne_of_mem_inFlightErase hm.base.nodup hq
        by_cases hcase : e2 < mc.no_new_transactions_at_or_before
        · rw [if_pos hcase]
          intro hmem
          have hmem2 := (mem_coalesce.mp hmem).1
          rw [hlist2] at hmem2
          rcases List.mem_append.mp hmem2 with hh | hh
          · have hcq : m.cur_snap.isCommitted e2 = true :=
              committed_of_mem hh hm.base.listLtNcaa
            have hfq : m.cur_snap.isCommitted q.1 = false :=
              hm.base.notCommitted q hqm
            rw [hqe] at hfq
            rw [hcq] at hfq
            cases hfq
          · rw [List.mem_singleton.mp hh] at hqe
            exact hqne hqe
        · rw [if_neg hcase]
          intro hmem
          have := hle2 _ (mem_coalesce.mp hmem).1
          have hno : mc.no_new_transactions_at_or_before =
              max m.no_new_transactions_at_or_before t := rfl
          omega
  · rw [if_neg hmin] at hm1
    have hacblt : m.cur_snap.all_committed_before < t :=
      acb_lt_of_not_earliest hm.base htmem hmin
    refine ⟨hbase, ?_, ?_⟩
    · rw [hm1]
      exact hle2
    · rw [hm1]
      rw [addCommitted_acb, hlist2]
      intro hmem
      rcases List.mem_append.mp hmem with hh | hh
      · exact hm.acbNotInList hh
      · rw [List.mem_singleton.mp hh] at hacblt
        omega

theorem invB_applyOp {m m1 : MvccManager} {op : MgrOp} (hm : InvB m)
    (hop : op.isOffline = false) (h : m.applyOp op = some m1) : InvB m1 := by
  have hbase : Inv m1 := inv_applyOp hm.base (by
    cases op <;> simp_all [MgrOp.isOffline, MgrOp.isOfflineAdjust]) h
  cases op with
  | startOp =>
    simp only [MvccManager.applyOp, Option.some.injEq] at h
    exact invB_of_inv_same hm hbase (by rw [← h] <;> rfl) (by rw [← h] <;> rfl)
  | startAtLatest err =>
    simp only [MvccManager.applyOp, Option.some.injEq] at h
    exact invB_of_inv_same hm hbase (by rw [← h] <;> rfl) (by rw [← h] <;> rfl)
  | startAtHybridTime hh =>
    simp only [MvccManager.applyOp] at h
    rcases hs : m.startOperationAtHybridTime hh with m2 | m2 <;> rw [hs] at h <;>
      simp only [Option.some.injEq] at h
    · exact invB_of_inv_same hm hbase (by rw [← h] <;> rfl) (by rw [← h] <;> rfl)
    · rw [MvccManager.startOperationAtHybridTime] at hs
      split at hs
      · cases hs
      · split at hs
        · cases hs
        · simp only [Except.ok.injEq] at hs
          rw [← hs] at h
          exact invB_of_inv_same hm hbase (by rw [← h] <;> rfl) (by rw [← h] <;> rfl)
  | startApplying hh =>
    rw [MvccManager.applyOp, MvccManager.startApplyingOperation] at h
    rcases hl : inFlightLookup m.inFlight hh with _ | st <;> rw [hl] at h
    · cases h
    · cases st
      · simp only [Option.some.injEq] at h
        exact invB_of_inv_same hm hbase (by rw [← h] <;> rfl) (by rw [← h] <;> rfl)
      · cases h
  | commitOp hh =>
    exact invB_commitOperation hm h
  | offlineCommitOp hh =>
    simp [MgrOp.isOffline] at hop
  | offlineAdjust hh =>
    simp [MgrOp.isOffline] at hop
  | abortOp hh =>
    rcases abortOperation_eq_some h with ⟨_, hm1⟩
    exact invB_of_inv_same hm hbase (by rw [hm1] <;> rfl) (by rw [hm1] <;> rfl)
  | clockUpdateOp hh =>
    simp only [MvccManager.applyOp, Option.some.injEq] at h
    exact invB_of_inv_same hm hbase (by rw [← h] <;> rfl) (by rw [← h] <;> rfl)
  | readMaxSafeTime =>
    simp only [MvccManager.applyOp, MvccManager.getMaxSafeTimeToReadAt] at h
    by_cases he : m.inFlight.isEmpty
    · rw [if_pos he] at h
      simp only [MvccManager.clockNow, Option.some.injEq] at h
      exact invB_of_inv_same hm hbase (by rw [← h] <;> rfl) (by rw [← h] <;> rfl)
    · rw [if_neg he] at h
      simp only [Option.some.injEq] at h
      exact invB_of_inv_same hm hbase (by rw [← h] <;> rfl) (by rw [← h] <;> rfl)

theorem invB_runOps {ops : List MgrOp} :
    ∀ {m m1 : MvccManager}, InvB m →
      (ops.all fun op => !op.isOffline) = true →
      runOps m ops = some m1 → InvB m1 := by
  induction ops with
  | nil =>
    intro m m1 hm _ h
    simp only [runOps, Option.some.injEq] at h
    rw [← h]
    exact hm
  | cons op rest ih =>
    intro m m1 hm hops h
    rw [List.all_cons, Bool.and_eq_true] at hops
    have hops1 : op.isOffline = false := by
      have := hops.1
      simpa using this
    simp only [runOps] at h
    rcases ha : m.applyOp op with _ | m2 <;> rw [ha] at h
    · cases h
    · exact ih (invB_applyOp hm hops1 ha) hops.2 h

/-! The wake condition and the wait primitive. -/

theorem areAll_nonempty_char {m : MvccManager} {t : Nat}
    (hne : m.inFlight.isEmpty = false) :
    m.areAllOperationsCommitted t =
      (decide (∀ p ∈ m.inFlight, t < p.1), m) := by
  rw [MvccManager.areAllOperationsCommitted, if_neg (by simp [hne])]
  rcases hmin : inFlightMinKey m.inFlight with _ | e
  · have : m.inFlight = [] := (inFlightMinKey_eq_none_iff _).mp hmin
    rw [this] at hne
    simp at hne
  · have hiff : (t < e) ↔ (∀ p ∈ m.inFlight, t < p.1) := by
      constructor
      · intro hte p hp
        rcases inFlightMinKey_le hp with ⟨f, hf, hfle⟩
        rw [hmin] at hf
        cases hf
        omega
      · intro hall
        rcases List.mem_map.mp (inFlightMinKey_mem hmin) with ⟨q, hq, hqe⟩
        have := hall q hq
        omega
    rw [Prod.mk.injEq]
    exact ⟨decide_eq_decide.mpr hiff, rfl⟩

theorem areAll_empty_char {m : MvccManager} {t : Nat}
    (he : m.inFlight.isEmpty = true) :
    m.areAllOperationsCommitted t =
      (decide (t ≤ m.clock + 1), { m with clock := m.clock + 1 }) := by
  rw [MvccManager.areAllOperationsCommitted, if_pos he]
  rfl

/-- An initial check that passes produces the clean snapshot at once, without
consuming any event. -/
theorem wait_immediate {m : MvccManager} {t : Nat} (events : List MgrOp)
    (hd : (m.areAllOperationsCommitted t).1 = true) :
    m.waitForCleanSnapshotAtHybridTime t events =
      .ok (0, MvccSnapshot.clean t) := by
  cases events <;>
    simp [MvccManager.waitForCleanSnapshotAtHybridTime, hd]

/-- A deadline reached while the wake condition is false is the TimedOut
error. -/
theorem wait_nil_timeout {m : MvccManager} {t : Nat}
    (hd : (m.areAllOperationsCommitted t).1 = false) :
    m.waitForCleanSnapshotAtHybridTime t [] = .error () := by
  simp [MvccManager.waitForCleanSnapshotAtHybridTime, hd]

/-- While the wake condition is false the waiter sleeps through the next
manager call and is re-checked after it. -/
theorem wait_step {m m2 : MvccManager} {t : Nat} {e : MgrOp} {rest : List MgrOp}
    (hd : (m.areAllOperationsCommitted t).1 = false)
    (ha : (m.areAllOperationsCommitted t).2.applyOp e = some m2) :
    m.waitForCleanSnapshotAtHybridTime t (e :: rest) =
      (m2.waitForCleanSnapshotAtHybridTime t rest).map fun p => (p.1 + 1, p.2) := by
  simp [MvccManager.waitForCleanSnapshotAtHybridTime, hd, ha]

/-- Whatever the history, a successful wait hands back exactly the clean
snapshot at the requested timestamp. -/
theorem wait_ok_snapshot {t : Nat} : ∀ {events : List MgrOp}
    {m : MvccManager} {n : Nat} {s : MvccSnapshot},
    m.waitForCleanSnapshotAtHybridTime t events = .ok (n, s) →
    s = MvccSnapshot.clean t := by
  intro events
  induction events with
  | nil =>
    intro m n s h
    rw [MvccManager.waitForCleanSnapshotAtHybridTime] at h
    split at h
    · simp only [Except.ok.injEq, Prod.mk.injEq] at h
      exact h.2.symm
    · cases h
  | cons e rest ih =>
    intro m n s h
    rw [MvccManager.waitForCleanSnapshotAtHybridTime] at h
    by_cases hd : (m.areAllOperationsCommitted t).1 = true
    · rw [if_pos hd] at h
      simp only [Except.ok.injEq, Prod.mk.injEq] at h
      exact h.2.symm
    · rw [if_neg hd] at h
      rcases ha : (m.areAllOperationsCommitted t).2.applyOp e with _ | m2 <;>
        rw [ha] at h <;> dsimp only at h
      · cases h
      · rcases hw : m2.waitForCleanSnapshotAtHybridTime t rest with u | p <;>
          rw [hw] at h
        · cases h
        · simp only [Except.map, Except.ok.injEq, Prod.mk.injEq] at h
          rw [← h.2]
          exact ih hw

/-! GetMaxSafeTimeToReadAt. -/

theorem getMaxSafe_inflight {m : MvccManager} (hne : m.inFlight.isEmpty = false) :
    m.getMaxSafeTimeToReadAt = (m.cur_snap.all_committed_before - 1, m) := by
  rw [MvccManager.getMaxSafeTimeToReadAt, if_neg (by simp [hne])]

theorem getMaxSafe_empty {m : MvccManager} (he : m.inFlight.isEmpty = true) :
    m.getMaxSafeTimeToReadAt = (m.clock + 1, { m with clock := m.clock + 1 }) := by
  rw [MvccManager.getMaxSafeTimeToReadAt, if_pos he]
  rfl

/-- In histories without offline calls, the value of GetMaxSafeTimeToReadAt
while something is in flight is exactly the top of the contiguous committed
prefix of the current snapshot. -/
theorem getMaxSafe_contiguous {m : MvccManager} (hm : InvB m)
    (hne : m.inFlight.isEmpty = false) :
    (∀ x, x ≤ (m.getMaxSafeTimeToReadAt).1 →
        m.cur_snap.isCommitted x = true) ∧
      m.cur_snap.isCommitted ((m.getMaxSafeTimeToReadAt).1 + 1) = false := by
  rw [getMaxSafe_inflight hne]
  have hpos := hm.base.acbPos
  constructor
  · intro x hx
    simp only at hx
    exact (isCommitted_iff _ _).mpr (Or.inl (by omega))
  · simp only
    have heq : m.cur_snap.all_committed_before - 1 + 1 =
        m.cur_snap.all_committed_before := by omega
    rw [heq, isCommitted_eq_false_iff]
    exact ⟨Nat.le_refl _, Or.inr hm.acbNotInList⟩

/-! Watermark immobility before the first commit. -/

theorem applyOp_keeps_initial_acb {m m1 : MvccManager} {op : MgrOp} (hm : Inv m)
    (hno : m.no_new_transactions_at_or_before = 0)
    (hop : op.movesWatermark = false) (h : m.applyOp op = some m1) :
    m1.no_new_transactions_at_or_before = 0 ∧
      m1.cur_snap.all_committed_before = m.cur_snap.all_committed_before := by
  cases op with
  | startOp =>
    simp only [MvccManager.applyOp, Option.some.injEq] at h
    rw [← h]
    exact ⟨hno, rfl⟩
  | startAtLatest err =>
    simp only [MvccManager.applyOp, Option.some.injEq] at h
    rw [← h]
    exact ⟨hno, rfl⟩
  | startAtHybridTime hh =>
    simp only [MvccManager.applyOp] at h
    rcases hs : m.startOperationAtHybridTime hh with m2 | m2 <;> rw [hs] at h <;>
      simp only [Option.some.injEq] at h
    · rw [← h]
      exact ⟨hno, rfl⟩
    · rw [MvccManager.startOperationAtHybridTime] at hs
      split at hs
      · cases hs
      · split at hs
        · cases hs
        · simp only [Except.ok.injEq] at hs
          rw [← h, ← hs]
          exact ⟨hno, rfl⟩
  | startApplying hh =>
    rw [MvccManager.applyOp, MvccManager.startApplyingOperation] at h
    rcases hl : inFlightLookup m.inFlight hh with _ | st <;> rw [hl] at h
    · cases h
    · cases st
      · simp only [Option.some.injEq] at h
        rw [← h]
        exact ⟨hno, rfl⟩
      · cases h
  | commitOp hh =>
    simp [MgrOp.movesWatermark] at hop
  | offlineCommitOp hh =>
    rcases offlineCommitOperation_eq_some h with ⟨_, hl, hm1⟩
    have htmem : (hh, TxnState.applying) ∈ m.inFlight := mem_of_inFlightLookup hl
    have hpos : 1 ≤ hh := hm.pos _ htmem
    rw [if_neg (by
      intro hc
      rw [hno] at hc
      omega)] at hm1
    rw [hm1]
    exact ⟨hno, addCommitted_acb _ _⟩
  | offlineAdjust hh =>
    simp [MgrOp.movesWatermark] at hop
  | abortOp hh =>
    rcases abortOperation_eq_some h with ⟨_, hm1⟩
    rw [hm1]
    exact ⟨hno, rfl⟩
  | clockUpdateOp hh =>
    simp only [MvccManager.applyOp, Option.some.injEq] at h
    rw [← h]
    exact ⟨hno, rfl⟩
  | readMaxSafeTime =>
    simp only [MvccManager.applyOp, MvccManager.getMaxSafeTimeToReadAt] at h
    by_cases he : m.inFlight.isEmpty
    · rw [if_pos he] at h
      simp only [MvccManager.clockNow, Option.some.injEq] at h
      rw [← h]
      exact ⟨hno, rfl⟩
    · rw [if_neg he] at h
      simp only [Option.some.injEq] at h
      rw [← h]
      exact ⟨hno, rfl⟩

theorem runOps_keeps_initial_acb {ops : List MgrOp} :
    ∀ {m m1 : MvccManager}, Inv m →
      m.no_new_transactions_at_or_before = 0 →
      (ops.all fun op => !op.movesWatermark) = true →
      runOps m ops = some m1 →
      m1.no_new_transactions_at_or_before = 0 ∧
        m1.cur_snap.all_committed_before = m.cur_snap.all_committed_before := by
  induction ops with
  | nil =>
    intro m m1 hm hno _ h
    simp only [runOps, Option.some.injEq] at h
    rw [← h]
    exact ⟨hno, rfl⟩
  | cons op rest ih =>
    intro m m1 hm hno hops h
    rw [List.all_cons, Bool.and_eq_true] at hops
    have hops1 : op.movesWatermark = false := by
      have := hops.1
      simpa using this
    have hopadj : op.isOfflineAdjust = false := by
      cases op <;> simp_all [MgrOp.movesWatermark, MgrOp.isOfflineAdjust]
    simp only [runOps] at h
    rcases ha : m.applyOp op with _ | m2 <;> rw [ha] at h
    · cases h
    · rcases applyOp_keeps_initial_acb hm hno hops1 ha with ⟨hno2, hacb2⟩
      rcases ih (inv_applyOp hm hopadj ha) hno2 hops.2 h with ⟨hno3, hacb3⟩
      exact ⟨hno3, by rw [hacb3, hacb2]⟩

/-! Monotonicity of the timestamps handed out by StartOperation. -/

theorem runStarts_cons_start (m : MvccManager) (ops : List MgrOp) :
    runStarts m (.startOp :: ops) =
      (m.startOperation).1 :: runStarts (m.startOperation).2 ops := rfl

theorem runStarts_cons_other {op : MgrOp} (m : MvccManager) (ops : List MgrOp)
    (hne : op ≠ .startOp) :
    runStarts m (op :: ops) =
      (match m.applyOp op with
        | none => []
        | some m1 => runStarts m1 ops) := by
  cases op <;> first
    | exact absurd rfl hne
    | rfl

theorem runStarts_gt {ops : List MgrOp} :
    ∀ {m : MvccManager} {x : Nat}, x ∈ runStarts m ops → m.clock < x := by
  induction ops with
  | nil =>
    intro m x hx
    simp [runStarts] at hx
  | cons op rest ih =>
    intro m x hx
    by_cases hop : op = MgrOp.startOp
    · subst hop
      rw [runStarts_cons_start] at hx
      have hv : m.clock < (m.startOperation).1 := freshFrom_gt _ _ _
      rcases List.mem_cons.mp hx with h | h
      · rw [h]
        exact hv
      · have h2 := ih h
        have h3 : (m.startOperation).2.clock = (m.startOperation).1 := rfl
        omega
    · rw [runStarts_cons_other m rest hop] at hx
      rcases ha : m.applyOp op with _ | m2 <;> rw [ha] at hx <;> dsimp only at hx
      · simp at hx
      · have h2 := ih hx
        have h3 := applyOp_clock_mono ha
        omega

theorem runStarts_pairwise (ops : List MgrOp) :
    ∀ m : MvccManager, (runStarts m ops).Pairwise (· < ·) := by
  induction ops with
  | nil =>
    intro m
    simp [runStarts]
  | cons op rest ih =>
    intro m
    by_cases hop : op = MgrOp.startOp
    · subst hop
      rw [runStarts_cons_start]
      refine List.Pairwise.cons ?_ (ih _)
      intro x hx
      have h2 := runStarts_gt hx
      have h3 : (m.startOperation).2.clock = (m.startOperation).1 := rfl
      omega
    · rw [runStarts_cons_other m rest hop]
      rcases ha : m.applyOp op with _ | m2 <;> dsimp only
      · simp
      · exact ih m2

/-- OfflineAdjustSafeTime never moves the watermark backward (on invariant
states). -/
theorem offlineAdjust_acb_ge {m : MvccManager} (t : Nat) (hm : Inv m) :
    m.cur_snap.all_committed_before ≤
      (m.offlineAdjustSafeTime t).cur_snap.all_committed_before := by
  rw [MvccManager.offlineAdjustSafeTime, adjustCleanTime_snap, coalesce_acb]
  rcases hmin : inFlightMinKey m.inFlight with _ | e
  · dsimp only
    have h1 := hm.acbLe
    have h2 : m.no_new_transactions_at_or_before ≤
        max m.no_new_transactions_at_or_before t := Nat.le_max_left _ _
    omega
  · dsimp only
    rcases List.mem_map.mp (inFlightMinKey_mem hmin) with ⟨q, hq, hqe⟩
    have hacb_e : m.cur_snap.all_committed_before ≤ e := by
      have := acb_le_of_not_committed (hm.notCommitted q hq)
      omega
    have h1 := hm.acbLe
    have h2 : m.no_new_transactions_at_or_before ≤
        max m.no_new_transactions_at_or_before t := Nat.le_max_left _ _
    split <;> omega

/-! The claims. -/

/-- C1: for every snapshot with fields (all_committed_before, committed_set,
none_committed_at_or_after) and every timestamp t, IsCommitted(t) returns
true when t < all_committed_before, returns false when
t ≥ none_committed_at_or_after, and otherwise returns true exactly when t is
a member of the committed set; in particular a clean snapshot at cutoff T
satisfies IsCommitted(t) = (t < T) for all t, with IsCommitted(T) itself
false — checked also at the concrete values of TestPointInTimeSnapshot. -/
theorem c1_isCommitted_spec :
    (∀ (s : MvccSnapshot) (t : Nat),
        s.isCommitted t =
          if t < s.all_committed_before then true
          else if s.none_committed_at_or_after ≤ t then false
          else decide (t ∈ s.committed_hybrid_times)) ∧
      (∀ T t : Nat, (MvccSnapshot.clean T).isCommitted t = decide (t < T)) ∧
      (∀ T : Nat, (MvccSnapshot.clean T).isCommitted T = false) ∧
      ((MvccSnapshot.clean 10).isCommitted 1 = true ∧
        (MvccSnapshot.clean 10).isCommitted 9 = true ∧
        (MvccSnapshot.clean 10).isCommitted 10 = false ∧
        (MvccSnapshot.clean 10).isCommitted 11 = false) := by
  refine ⟨fun s t => rfl, fun T t => isCommitted_clean T t, fun T => ?_, by decide⟩
  rw [isCommitted_clean]
  simp

/-- C7: MayHaveUncommittedOperationsAtOrBefore(t) is true exactly when t is
not strictly below all_committed_before, except for the edge case of a
committed set that is the single entry equal to the watermark, where the
query at t = watermark returns false — checked against every assertion of
TestMayHaveUncommittedOperationsBefore, including the all-committed,
none-committed, clean and single-entry snapshots. -/
theorem c7_mayHaveUncommitted_spec :
    (∀ (s : MvccSnapshot) (t : Nat),
        s.mayHaveUncommittedOperationsAtOrBefore t =
          if t < s.all_committed_before then false
          else if t = s.all_committed_before ∧
              s.committed_hybrid_times = [s.all_committed_before] then false
          else true) ∧
      (c7snap.mayHaveUncommittedOperationsAtOrBefore 9 = false ∧
        c7snap.mayHaveUncommittedOperationsAtOrBefore 10 = true ∧
        c7snap.mayHaveUncommittedOperationsAtOrBefore 11 = true ∧
        c7snap.mayHaveUncommittedOperationsAtOrBefore 13 = true ∧
        c7snap.mayHaveUncommittedOperationsAtOrBefore 14 = true ∧
        c7snap.mayHaveUncommittedOperationsAtOrBefore 15 = true) ∧
      (MvccSnapshot.createSnapshotIncludingAllOperations.mayHaveUncommittedOperationsAtOrBefore
          1 = false ∧
        MvccSnapshot.createSnapshotIncludingAllOperations.mayHaveUncommittedOperationsAtOrBefore
          12345 = false) ∧
      (MvccSnapshot.createSnapshotIncludingNoOperations.mayHaveUncommittedOperationsAtOrBefore
          1 = true ∧
        MvccSnapshot.createSnapshotIncludingNoOperations.mayHaveUncommittedOperationsAtOrBefore
          12345 = true) ∧
      ((MvccSnapshot.clean 10).mayHaveUncommittedOperationsAtOrBefore 9 = false ∧
        (MvccSnapshot.clean 10).mayHaveUncommittedOperationsAtOrBefore 10 = true) ∧
      c7snap2.mayHaveUncommittedOperationsAtOrBefore 10 = false := by
  exact ⟨fun s t => rfl, by decide, by decide, by decide, by decide, by decide⟩

/-- C8 counterexample: the repository's tests pin the diagnostic prefix as
`MvccSnapshot[`, not `Snapshot[`: the fresh manager's snapshot stringifies to
`MvccSnapshot[committed=\x7bT|T < 1\x7d]`, which differs from the claimed
form `Snapshot[committed=\x7bT|T < 1\x7d]` byte for byte. -/
theorem c8_toStr_counterexample :
    MvccManager.create.takeSnapshot.toStr =
        "MvccSnapshot[committed=\x7bT|T < 1\x7d]" ∧
      MvccManager.create.takeSnapshot.toStr ≠
        "Snapshot[committed=\x7bT|T < 1\x7d]" := by
  exact ⟨rfl, by decide⟩

/-- C8 amended: the diagnostic string of every snapshot has exactly the form
`MvccSnapshot[committed=\x7bT|T < W or (T in \x7bh1,h2,...\x7d)\x7d]` with W
the watermark and h1,h2,... the sorted hole set, the hole clause omitted when
the hole set is empty; a fresh manager's snapshot stringifies with the
initial sentinel 1 and reports nothing committed — checked against every
string TestMvccBasic, TestMvccMultipleInFlight and
TestCleanTimeCoalescingOnOfflineOperations pin, and on a history whose holes
were committed out of order. -/
theorem c8_toStr_spec :
    (∀ s : MvccSnapshot,
        s.toStr =
          if s.committed_hybrid_times.isEmpty then
            "MvccSnapshot[committed=\x7bT|T < " ++
              toString s.all_committed_before ++ "\x7d]"
          else
            "MvccSnapshot[committed=\x7bT|T < " ++
              toString s.all_committed_before ++ " or (T in \x7b" ++
              String.intercalate ","
                ((s.committed_hybrid_times.insertionSort (· ≤ ·)).map toString) ++
              "\x7d)\x7d]") ∧
      MvccManager.create.takeSnapshot.toStr =
        "MvccSnapshot[committed=\x7bT|T < 1\x7d]" ∧
      ((runOps MvccManager.create [.startOp, .startApplying 1, .commitOp 1]).map
          (fun m => m.takeSnapshot.toStr) =
        some "MvccSnapshot[committed=\x7bT|T < 2\x7d]") ∧
      ((runOps MvccManager.create [.startOp, .startOp, .startApplying 2,
          .commitOp 2]).map (fun m => m.takeSnapshot.toStr) =
        some "MvccSnapshot[committed=\x7bT|T < 1 or (T in \x7b2\x7d)\x7d]") ∧
      ((runOps MvccManager.create [.startOp, .startOp, .startApplying 2,
          .commitOp 2, .startOp, .startApplying 3, .commitOp 3]).map
          (fun m => m.takeSnapshot.toStr) =
        some "MvccSnapshot[committed=\x7bT|T < 1 or (T in \x7b2,3\x7d)\x7d]") ∧
      ((runOps MvccManager.create [.startOp, .startOp, .startApplying 2,
          .commitOp 2, .startOp, .startApplying 3, .commitOp 3,
          .startApplying 1, .commitOp 1]).map (fun m => m.takeSnapshot.toStr) =
        some "MvccSnapshot[committed=\x7bT|T < 4\x7d]") ∧
      ((runOps MvccManager.create (c5co2 ++ [.offlineCommitOp 10])).map
          (fun m => m.takeSnapshot.toStr) =
        some "MvccSnapshot[committed=\x7bT|T < 16\x7d]") ∧
      ((runOps MvccManager.create [.startOp, .startOp, .startOp,
          .startApplying 3, .commitOp 3, .startApplying 2, .commitOp 2]).map
          (fun m => (m.cur_snap.committed_hybrid_times, m.takeSnapshot.toStr)) =
        some ([3, 2],
          "MvccSnapshot[committed=\x7bT|T < 1 or (T in \x7b2,3\x7d)\x7d]")) := by
  exact ⟨fun s => rfl, rfl, rfl, rfl, rfl, rfl, rfl, rfl⟩

/-- C9: over every history of manager calls, the timestamps handed out by
successive StartOperation calls are strictly increasing, and no timestamp
value is ever handed out twice by StartOperation — even after earlier
operations abort or commit, and whatever other calls (commit-wait starts,
replay starts, offline commits and adjustments, clock updates) happen in
between. -/
theorem c9_start_timestamps_increasing :
    ∀ ops : List MgrOp,
      (runStarts MvccManager.create ops).Pairwise (· < ·) ∧
        (runStarts MvccManager.create ops).Nodup := by
  intro ops
  have h := runStarts_pairwise ops MvccManager.create
  exact ⟨h, h.imp fun hlt => Nat.ne_of_lt hlt⟩

/-- C2: CommitOperation(t) removes t from the in-flight map and adds it to
the committed set, folding contiguous committed runs into the watermark:
committing the single oldest in-flight operation advances the watermark past
it, while committing a newer operation with an older one still in flight
leaves the watermark unchanged and records a hole; concretely, after
starting t1=1 and t2=2, committing t2 yields IsCommitted(t1)=false,
IsCommitted(t2)=true and the snapshot with committed set
`T < 1 or (T in \x7b2\x7d)`, and then committing t1 collapses the snapshot to
the clean cutoff `T < 3`. -/
theorem c2_commitOperation_spec :
    (∀ (m m1 : MvccManager) (t : Nat), Inv m →
        m.commitOperation t = some m1 →
        inFlightMinKey m.inFlight = some t →
        inFlightLookup m1.inFlight t = none ∧
          m1.cur_snap.isCommitted t = true ∧
          t < m1.cur_snap.all_committed_before) ∧
      (∀ (m m1 : MvccManager) (t : Nat), Inv m →
        m.commitOperation t = some m1 →
        inFlightMinKey m.inFlight ≠ some t →
        inFlightLookup m1.inFlight t = none ∧
          t ∈ m1.cur_snap.committed_hybrid_times ∧
          m1.cur_snap.isCommitted t = true ∧
          m1.cur_snap.all_committed_before = m.cur_snap.all_committed_before) ∧
      ((runOps MvccManager.create
          [.startOp, .startOp, .startApplying 2, .commitOp 2]).map
          (fun m => (m.cur_snap.isCommitted 1, m.cur_snap.isCommitted 2,
            m.takeSnapshot.toStr)) =
        some (false, true,
          "MvccSnapshot[committed=\x7bT|T < 1 or (T in \x7b2\x7d)\x7d]")) ∧
      ((runOps MvccManager.create [.startOp, .startOp, .startApplying 2,
          .commitOp 2, .startApplying 1, .commitOp 1]).map
          (fun m => (m.takeSnapshot.toStr, m.cur_snap.is_clean,
            m.cur_snap.isCommitted 1, m.cur_snap.isCommitted 2)) =
        some ("MvccSnapshot[committed=\x7bT|T < 3\x7d]", true, true, true)) := by
  refine ⟨?_, ?_, rfl, rfl⟩
  · intro m m1 t hm h heq
    rcases commitOperation_earliest hm h heq with ⟨h1, h2, h3⟩
    exact ⟨h2, h3, h1⟩
  · intro m m1 t hm h hne
    rcases commitOperation_not_earliest hm h hne with ⟨h1, h2, h3, h4⟩
    exact ⟨h3, h2, h4, h1⟩

/-- Witness for C2: the two hypothesized parts applied at the concrete states
c2mA (committing the newer operation 2 with 1 still in flight) and c2mC
(committing the oldest operation 1). -/
theorem c2_commitOperation_spec_witness :
    (inFlightLookup c2mD.inFlight 1 = none ∧
        c2mD.cur_snap.isCommitted 1 = true ∧
        1 < c2mD.cur_snap.all_committed_before) ∧
      (inFlightLookup c2mB.inFlight 2 = none ∧
        2 ∈ c2mB.cur_snap.committed_hybrid_times ∧
        c2mB.cur_snap.isCommitted 2 = true ∧
        c2mB.cur_snap.all_committed_before =
          c2mA.cur_snap.all_committed_before) := by
  have h := c2_commitOperation_spec
  exact ⟨h.1 c2mC c2mD 1 (by constructor <;> decide) (by rfl) (by decide),
    h.2.1 c2mA c2mB 2 (by constructor <;> decide) (by rfl) (by decide)⟩

/-- C4: each illegal lifecycle transition is a fatal contract violation
(modelled as `none`), never a silently ignored call or recoverable error:
StartApplyingOperation on a timestamp that is absent or already APPLYING,
CommitOperation on a timestamp that never entered APPLYING or is not in
flight (or still in the clock's future), and AbortOperation on a timestamp
that is absent (double abort) or APPLYING, each crash; the only legal orders
are Start, StartApplying, Commit and Start, Abort — exercised on the exact
history of TestIllegalStateTransitionsCrash, timestamps 21 and 22
included. -/
theorem c4_illegal_transitions_fatal :
    (∀ (m : MvccManager) (t : Nat),
        m.startApplyingOperation t = none ↔
          inFlightLookup m.inFlight t ≠ some TxnState.reserved) ∧
      (∀ (m : MvccManager) (t : Nat),
        m.abortOperation t = none ↔
          inFlightLookup m.inFlight t ≠ some TxnState.reserved) ∧
      (∀ (m : MvccManager) (t : Nat),
        m.commitOperation t = none ↔
          (m.clock < t ∨
            inFlightLookup m.inFlight t ≠ some TxnState.applying)) ∧
      (MvccManager.create.startApplyingOperation 1 = none ∧
        MvccManager.create.commitOperation 1 = none ∧
        (MvccManager.create.clockUpdate 20).commitOperation 1 = none ∧
        ((MvccManager.create.clockUpdate 20).startOperation).1 = 21 ∧
        c4m1.commitOperation 21 = none ∧
        c4m1.abortOperation 21 = some c4m2 ∧
        c4m2.abortOperation 21 = none ∧
        (c4m2.startOperation).1 = 22 ∧
        (c4m2.startOperation).2.startApplyingOperation 22 = some c4m3 ∧
        c4m3.startApplyingOperation 22 = none ∧
        c4m3.abortOperation 22 = none ∧
        (c4m3.commitOperation 22).isSome = true) := by
  refine ⟨?_, ?_, ?_, by decide⟩
  · intro m t
    rw [MvccManager.startApplyingOperation]
    rcases hl : inFlightLookup m.inFlight t with _ | st
    · simp
    · cases st <;> simp
  · intro m t
    rw [MvccManager.abortOperation]
    rcases hl : inFlightLookup m.inFlight t with _ | st
    · simp
    · cases st <;> simp
  · intro m t
    rw [MvccManager.commitOperation, MvccManager.commitOperationUnlocked]
    by_cases hck : t ≤ m.clock
    · rw [if_neg (by simp [MvccManager.clockIsAfter, hck])]
      rcases hl : inFlightLookup m.inFlight t with _ | st
      · simp only [Option.map_none']
        constructor
        · intro _
          exact Or.inr (by simp)
        · intro _
          trivial
      · cases st
        · simp only [Option.map_none']
          constructor
          · intro _
            exact Or.inr (by simp)
          · intro _
            trivial
        · simp only [Option.map_some']
          constructor
          · intro hcontra
            cases hcontra
          · intro hcontra
            rcases hcontra with hc | hc
            · omega
            · exact absurd rfl hc
    · rw [if_pos (by simp [MvccManager.clockIsAfter]; omega)]
      simp only [Option.map_none']
      constructor
      · intro _
        exact Or.inl (by omega)
      · intro _
        trivial

/-- Witness for C4: the three fatal-iff characterizations applied at the
concrete state c4m3 (a single APPLYING operation with timestamp 22). -/
theorem c4_illegal_transitions_fatal_witness :
    (c4m3.startApplyingOperation 22 = none ↔
        inFlightLookup c4m3.inFlight 22 ≠ some TxnState.reserved) ∧
      (c4m3.abortOperation 22 = none ↔
        inFlightLookup c4m3.inFlight 22 ≠ some TxnState.reserved) ∧
      (c4m3.commitOperation 23 = none ↔
        (c4m3.clock < 23 ∨
          inFlightLookup c4m3.inFlight 23 ≠ some TxnState.applying)) := by
  have h := c4_illegal_transitions_fatal
  exact ⟨h.1 c4m3 22, h.2.1 c4m3 22, h.2.2.1 c4m3 23⟩

/-- C3 counterexample: the wait does not unblock once every timestamp
strictly below t is committed.  In the cited deadline test only operation 1
is in flight and the wait is at t=1: no operation with timestamp < 1 exists
and every timestamp below 1 is committed, yet the wait times out; and in the
cited in-flights test, after committing operation 1 every operation below
t=2 is committed, yet the waiter at t=2 stays blocked until operation 2
itself commits. -/
theorem c3_wait_counterexample :
    (((MvccManager.create.startOperation).2.inFlight.filter
          (fun p => p.1 < 1)).isEmpty = true ∧
      (MvccManager.create.startOperation).2.cur_snap.isCommitted 0 = true ∧
      (MvccManager.create.startOperation).2.waitForCleanSnapshotAtHybridTime
          1 [] = .error ()) ∧
    ((runOps MvccManager.create [.startOp, .startOp, .startOp,
        .startApplying 1, .commitOp 1]).map
        (fun m => (m.cur_snap.isCommitted 1,
          (m.inFlight.filter (fun p => p.1 < 2)).isEmpty)) =
      some (true, true) ∧
      (runOps MvccManager.create [.startOp, .startOp, .startOp]).map
        (fun m => m.waitForCleanSnapshotAtHybridTime 2
          [.startApplying 1, .commitOp 1]) = some (.error ())) := by
  exact ⟨⟨rfl, rfl, rfl⟩, rfl, rfl⟩

/-- C3 amended: WaitForCleanSnapshotAtHybridTime(t, deadline) blocks while
any operation with timestamp at or below t is outstanding (the wake
condition, re-checked on every manager call, is that every in-flight
timestamp exceeds t), returns the clean snapshot at t as soon as the last
blocking operation commits — even if operations with higher timestamps
committed earlier without unblocking it — and returns the TimedOut error
when the deadline elapses first (e.g. waiting on a never-committed timestamp
times out); concretely, with operations 1,2,3 in flight and a waiter at t=2,
the waiter survives the commits of 1 and of 3 and wakes exactly at the
commit of 2, receiving the clean snapshot at 2. -/
theorem c3_wait_amended :
    (∀ (m : MvccManager) (t : Nat) (p : Nat × TxnState), p ∈ m.inFlight →
        p.1 ≤ t → m.waitForCleanSnapshotAtHybridTime t [] = .error ()) ∧
      (∀ (m : MvccManager) (t : Nat), m.inFlight.isEmpty = false →
        ((m.areAllOperationsCommitted t).1 = true ↔
          ∀ p ∈ m.inFlight, t < p.1)) ∧
      (∀ (events : List MgrOp) (m : MvccManager) (t n : Nat) (s : MvccSnapshot),
        m.waitForCleanSnapshotAtHybridTime t events = .ok (n, s) →
        s = MvccSnapshot.clean t ∧ s.is_clean = true ∧
          ∀ x, s.isCommitted x = decide (x < t)) ∧
      ((runOps MvccManager.create [.startOp, .startOp, .startOp]).map
          (fun m => m.waitForCleanSnapshotAtHybridTime 2
            [.startApplying 1, .commitOp 1, .startApplying 3, .commitOp 3,
              .startApplying 2, .commitOp 2]) =
        some (.ok (6, MvccSnapshot.clean 2)) ∧
        (runOps MvccManager.create [.startOp, .startOp, .startOp]).map
          (fun m => m.waitForCleanSnapshotAtHybridTime 2
            [.startApplying 1, .commitOp 1, .startApplying 3, .commitOp 3]) =
          some (.error ()) ∧
        (runOps MvccManager.create [.startOp]).map
          (fun m => m.waitForCleanSnapshotAtHybridTime 1 []) =
          some (.error ())) := by
  refine ⟨?_, ?_, ?_, rfl, rfl, rfl⟩
  · intro m t p hp hple
    have hne : m.inFlight.isEmpty = false := by
      cases hl : m.inFlight
      · rw [hl] at hp
        simp at hp
      · simp [hl]
    apply wait_nil_timeout
    rw [areAll_nonempty_char hne]
    simp only [decide_eq_false_iff_not]
    intro hall
    have := hall p hp
    omega
  · intro m t hne
    rw [areAll_nonempty_char hne]
    simp
  · intro events m t n s h
    have hs := wait_ok_snapshot h
    subst hs
    exact ⟨rfl, rfl, fun x => isCommitted_clean t x⟩

/-- Witness for C3: the hypothesized parts applied at concrete states — the
one-operation manager blocked at t=1, its wake-condition characterization,
and the successful wait of the in-flights test. -/
theorem c3_wait_amended_witness :
    (MvccManager.create.startOperation).2.waitForCleanSnapshotAtHybridTime
        1 [] = .error () ∧
      (((MvccManager.create.startOperation).2.areAllOperationsCommitted
          1).1 = true ↔
        ∀ p ∈ (MvccManager.create.startOperation).2.inFlight, 1 < p.1) ∧
      (MvccSnapshot.clean 1 = MvccSnapshot.clean 1 ∧
        (MvccSnapshot.clean 1).is_clean = true ∧
        ∀ x, (MvccSnapshot.clean 1).isCommitted x = decide (x < 1)) := by
  have h := c3_wait_amended
  refine ⟨h.1 (MvccManager.create.startOperation).2 1 (1, .reserved)
      (by decide) (by decide),
    h.2.1 (MvccManager.create.startOperation).2 1 (by decide),
    ?_⟩
  have h3 := h.2.2.1 [] MvccManager.create 1 0 (MvccSnapshot.clean 1) (by rfl)
  exact ⟨rfl, h3.2.1 ▸ rfl, fun x => (h3.2.2 x).trans (by rfl)⟩

/-- C5 counterexample: on the history of
TestCleanTimeCoalescingOnOfflineOperations, OfflineAdjustSafeTime(15) moves
the watermark from 1 to 10 (the earliest in-flight timestamp), not to 15 as
the claim's "advances the watermark to t" predicts; and the final
OfflineCommitOperation(10) moves the watermark from 10 to 16, contradicting
"leaves the watermark all_committed_before unchanged". -/
theorem c5_offline_counterexample :
    ((runOps MvccManager.create
        [.clockUpdateOp 20, .startAtHybridTime 10, .startAtHybridTime 15]).map
        (fun m => m.cur_snap.all_committed_before) = some 1 ∧
      (runOps MvccManager.create c5co).map
        (fun m => m.cur_snap.all_committed_before) = some 10) ∧
    ((runOps MvccManager.create c5co2).map
        (fun m => m.cur_snap.all_committed_before) = some 10 ∧
      (runOps MvccManager.create (c5co2 ++ [.offlineCommitOp 10])).map
        (fun m => m.cur_snap.all_committed_before) = some 16) := by
  exact ⟨⟨rfl, rfl⟩, rfl, rfl⟩

/-- C5 amended: OfflineCommitOperation(t) performs the same
in-flight-to-committed transition as CommitOperation(t); it leaves the
watermark unchanged unless t is the earliest in-flight timestamp and the
safe time no_new_transactions_at_or_before has already reached t, in which
case it re-coalesces the watermark exactly as CommitOperation would; a
timestamp below an offline-committed operation is still reported uncommitted
until an adjustment; OfflineAdjustSafeTime(t) raises the safe time to
max(safe, t), never lowers the watermark, and recomputes it to the earliest
in-flight timestamp when that is below the new safe time and to safe+1
otherwise, coalescing now-redundant committed entries; e.g. offline
committing T=15 then T=10 around OfflineAdjustSafeTime(15) yields the final
clean snapshot `T < 16`. -/
theorem c5_offline_amended :
    (∀ (m m1 : MvccManager) (t : Nat),
        m.offlineCommitOperation t = some m1 →
        ¬(inFlightMinKey m.inFlight = some t ∧
            t ≤ m.no_new_transactions_at_or_before) →
        m1.cur_snap.all_committed_before =
            m.cur_snap.all_committed_before ∧
          m1.cur_snap.isCommitted t = true ∧
          m1.no_new_transactions_at_or_before =
            m.no_new_transactions_at_or_before) ∧
      (∀ (m m1 m2 : MvccManager) (t : Nat),
        t ≤ m.no_new_transactions_at_or_before →
        m.offlineCommitOperation t = some m1 →
        m.commitOperation t = some m2 → m1 = m2) ∧
      (∀ (m : MvccManager) (t : Nat),
        (m.offlineAdjustSafeTime t).no_new_transactions_at_or_before =
          max m.no_new_transactions_at_or_before t) ∧
      (∀ (m : MvccManager) (t : Nat), Inv m →
        m.cur_snap.all_committed_before ≤
          (m.offlineAdjustSafeTime t).cur_snap.all_committed_before) ∧
      ((runOps MvccManager.create c5off).map
          (fun m => m.takeSnapshot.isCommitted 40) = some false ∧
        (runOps MvccManager.create (c5off ++ [.offlineAdjust 50])).map
          (fun m => m.takeSnapshot.isCommitted 40) = some true ∧
        (runOps MvccManager.create (c5co2 ++ [.offlineCommitOp 10])).map
          (fun m => m.takeSnapshot.toStr) =
          some "MvccSnapshot[committed=\x7bT|T < 16\x7d]") := by
  refine ⟨?_, ?_, fun m t => rfl, fun m t hm => offlineAdjust_acb_ge t hm,
    rfl, rfl, rfl⟩
  · intro m m1 t h hguard
    rcases offlineCommitOperation_eq_some h with ⟨_, _, hm1⟩
    rw [if_neg hguard] at hm1
    rw [hm1]
    exact ⟨addCommitted_acb _ _, isCommitted_addCommitted_self _ _, rfl⟩
  · intro m m1 m2 t hle h1 h2
    exact offlineCommit_state_eq_commit hle h1 h2

/-- Witness for C5: the hypothesized parts applied at concrete states — the
guard-free offline commit of 50 on the TestOfflineOperations state, the
agreement of offline and normal commit at state c2mC, and the watermark
monotonicity of OfflineAdjustSafeTime on the fresh manager. -/
theorem c5_offline_amended_witness :
    ((MvccManager.mk 100 [] 0
          (MvccSnapshot.mk 1 [50] 51)).cur_snap.all_committed_before =
        (MvccManager.mk 100 [(50, TxnState.applying)] 0
          MvccSnapshot.initial).cur_snap.all_committed_before ∧
      (MvccManager.mk 100 [] 0
          (MvccSnapshot.mk 1 [50] 51)).cur_snap.isCommitted 50 = true ∧
      (MvccManager.mk 100 [] 0
          (MvccSnapshot.mk 1 [50] 51)).no_new_transactions_at_or_before =
        (MvccManager.mk 100 [(50, TxnState.applying)] 0
          MvccSnapshot.initial).no_new_transactions_at_or_before) ∧
      c2mD = c2mD ∧
      MvccManager.create.cur_snap.all_committed_before ≤
        (MvccManager.create.offlineAdjustSafeTime
          7).cur_snap.all_committed_before := by
  have h := c5_offline_amended
  refine ⟨h.1 (MvccManager.mk 100 [(50, TxnState.applying)] 0
      MvccSnapshot.initial)
      (MvccManager.mk 100 [] 0 (MvccSnapshot.mk 1 [50] 51)) 50
      (by rfl) (by decide), ?_, h.2.2.2.1 MvccManager.create 7 inv_create⟩
  have h2 := h.2.1 c2mC c2mD c2mD 1 (by decide) (by rfl) (by rfl)
  exact h2 ▸ rfl

/-- C6 counterexample: a fresh manager with nothing in flight and nothing
committed returns 1 and then 2 from GetMaxSafeTimeToReadAt, not kMin = 0, so
"kMin for every call before the first commit" fails in the empty case; after
the offline history of TestOfflineOperations the call returns 49 while 60 is
still in flight even though timestamp 50 is committed, so the result is not
the supremum of the contiguous committed prefix; and an
OfflineAdjustSafeTime(5) with operation 10 in flight makes the call return 5
though nothing was ever committed. -/
theorem c6_safe_time_counterexample :
    (MvccManager.create.getMaxSafeTimeToReadAt.1 = 1 ∧
      (MvccManager.create.getMaxSafeTimeToReadAt.2).getMaxSafeTimeToReadAt.1 =
        2 ∧ kMinHybridTime = 0) ∧
    (runOps MvccManager.create c6off).map
      (fun m => (m.inFlight.isEmpty, m.getMaxSafeTimeToReadAt.1,
        m.cur_snap.isCommitted 50)) = some (false, 49, true) ∧
    (runOps MvccManager.create [.startAtHybridTime 10, .offlineAdjust 5]).map
      (fun m => (m.inFlight.isEmpty, m.getMaxSafeTimeToReadAt.1)) =
      some (false, 5) := by
  exact ⟨⟨rfl, rfl, rfl⟩, rfl, rfl⟩

/-- C6 amended: while at least one operation is in flight,
GetMaxSafeTimeToReadAt returns kMin in every history that never moves the
watermark (no CommitOperation or OfflineAdjustSafeTime call), and in every
history free of offline calls it returns the supremum of the contiguous
committed prefix — every timestamp at or below the result is committed and
the successor of the result is not; once no operations are in flight it
returns clock-derived values that strictly increase on repeated calls even
when no further operations are started or committed (so a fresh manager
with nothing in flight already returns values above kMin); concretely, in
TestMaxSafeTimeToReadAt the call yields kMin with four uncommitted
operations in flight, then 1..9 across the commit rounds, then 11 and 12
from the clock once everything is committed. -/
theorem c6_safe_time_amended :
    (∀ (ops : List MgrOp) (m1 : MvccManager),
        (ops.all fun op => !op.movesWatermark) = true →
        runOps MvccManager.create ops = some m1 →
        m1.inFlight.isEmpty = false →
        m1.getMaxSafeTimeToReadAt.1 = kMinHybridTime) ∧
      (∀ (ops : List MgrOp) (m1 : MvccManager),
        (ops.all fun op => !op.isOffline) = true →
        runOps MvccManager.create ops = some m1 →
        m1.inFlight.isEmpty = false →
        (∀ x, x ≤ m1.getMaxSafeTimeToReadAt.1 →
            m1.cur_snap.isCommitted x = true) ∧
          m1.cur_snap.isCommitted (m1.getMaxSafeTimeToReadAt.1 + 1) = false) ∧
      (∀ m : MvccManager, m.inFlight.isEmpty = true →
        m.getMaxSafeTimeToReadAt.1 <
          (m.getMaxSafeTimeToReadAt.2).getMaxSafeTimeToReadAt.1) ∧
      ((runOps MvccManager.create c6sf).map
          (fun m => m.getMaxSafeTimeToReadAt.1) = some kMinHybridTime ∧
        ((List.range 9).map (fun j =>
            (runOps MvccManager.create (c6ops (j + 5))).map
              (fun m => m.getMaxSafeTimeToReadAt.1))) =
          [some 1, some 2, some 3, some 4, some 5, some 6, some 7, some 8,
            some 9] ∧
        (runOps MvccManager.create
            (c6ops 13 ++ [.startApplying 10, .commitOp 10])).map
          (fun m => (m.getMaxSafeTimeToReadAt.1,
            m.getMaxSafeTimeToReadAt.2.getMaxSafeTimeToReadAt.1)) =
          some (11, 12)) := by
  refine ⟨?_, ?_, ?_, rfl, rfl, rfl⟩
  · intro ops m1 hops h hne
    have h2 := runOps_keeps_initial_acb inv_create rfl hops h
    rw [getMaxSafe_inflight hne]
    show m1.cur_snap.all_committed_before - 1 = kMinHybridTime
    rw [h2.2]
    rfl
  · intro ops m1 hops h hne
    exact getMaxSafe_contiguous (invB_runOps invB_create hops h) hne
  · intro m he
    rw [getMaxSafe_empty he]
    have he2 : ({ m with clock := m.clock + 1 } :
        MvccManager).inFlight.isEmpty = true := he
    rw [getMaxSafe_empty he2]
    show m.clock + 1 < m.clock + 1 + 1
    omega

/-- Witness for C6: the hypothesized parts applied at concrete states — kMin
with the four TestMaxSafeTimeToReadAt operations in flight, the contiguous
prefix at that same state, and the strict increase on the fresh, empty
manager. -/
theorem c6_safe_time_amended_witness :
    ((runOps MvccManager.create c6sf).getD
        MvccManager.create).getMaxSafeTimeToReadAt.1 = kMinHybridTime ∧
      ((∀ x, x ≤ ((runOps MvccManager.create c6sf).getD
            MvccManager.create).getMaxSafeTimeToReadAt.1 →
          ((runOps MvccManager.create c6sf).getD
            MvccManager.create).cur_snap.isCommitted x = true) ∧
        ((runOps MvccManager.create c6sf).getD
            MvccManager.create).cur_snap.isCommitted
          (((runOps MvccManager.create c6sf).getD
            MvccManager.create).getMaxSafeTimeToReadAt.1 + 1) = false) ∧
      MvccManager.create.getMaxSafeTimeToReadAt.1 <
        (MvccManager.create.getMaxSafeTimeToReadAt.2).getMaxSafeTimeToReadAt.1 := by
  have h := c6_safe_time_amended
  exact ⟨h.1 c6sf ((runOps MvccManager.create c6sf).getD MvccManager.create)
      (by decide) (by rfl) (by rfl),
    h.2.1 c6sf ((runOps MvccManager.create c6sf).getD MvccManager.create)
      (by decide) (by rfl) (by rfl),
    h.2.2.1 MvccManager.create (by rfl)⟩

/-- C10 counterexample: the history of c10ops contains no
OfflineAdjustSafeTime call, aborts operation 1 and then commits operations 2
and 3; the final snapshot reports IsCommitted(1) = true although 1 was
aborted, because commits of the later timestamps advanced the watermark
past the abandoned slot. -/
theorem c10_aborted_counterexample :
    (c10ops.all fun op => !op.isOfflineAdjust) = true ∧
      MgrOp.abortOp 1 ∈ c10ops ∧
      (runOps MvccManager.create c10ops).map
        (fun m => m.takeSnapshot.isCommitted 1) = some true := by
  exact ⟨by decide, by decide, rfl⟩

/-- C10 amended: for every sequence of manager operations that contains no
OfflineAdjustSafeTime call, every snapshot taken from the manager reports
IsCommitted(t) = false for every timestamp t currently in flight —
committing later (including future, commit-wait) timestamps never makes a
still-in-flight timestamp appear committed; AbortOperation itself leaves
the snapshot and the safe time untouched, so it never makes the aborted
timestamp visible as committed and never advances the watermark at the
moment of the abort, but once later timestamps commit and the watermark
coalesces past the aborted slot, the aborted timestamp is reported
committed; concretely, right after the abort in c10ops timestamp 1 is
still uncommitted and the watermark still 1. -/
theorem c10_inflight_uncommitted :
    (∀ (ops : List MgrOp) (m1 : MvccManager),
        (ops.all fun op => !op.isOfflineAdjust) = true →
        runOps MvccManager.create ops = some m1 →
        ∀ p ∈ m1.inFlight, m1.takeSnapshot.isCommitted p.1 = false) ∧
      (∀ (m m1 : MvccManager) (t : Nat), m.abortOperation t = some m1 →
        m1.cur_snap = m.cur_snap ∧
          m1.no_new_transactions_at_or_before =
            m.no_new_transactions_at_or_before) ∧
      (runOps MvccManager.create
          [.startOp, .startOp, .startOp, .abortOp 1]).map
        (fun m => (m.takeSnapshot.isCommitted 1,
          m.cur_snap.all_committed_before)) = some (false, 1) := by
  refine ⟨?_, ?_, rfl⟩
  · intro ops m1 hops h p hp
    exact (inv_runOps inv_create hops h).notCommitted p hp
  · intro m m1 t h
    exact abortOperation_snap h

/-- Witness for C10: the hypothesized parts applied at concrete states — the
single started operation is uncommitted in its manager's snapshot, and a
concrete abort changes neither snapshot nor safe time. -/
theorem c10_inflight_uncommitted_witness :
    (MvccManager.create.startOperation).2.takeSnapshot.isCommitted 1 =
        false ∧
      (((MvccManager.create.startOperation).2.abortOperation 1).getD
            MvccManager.create).cur_snap =
          (MvccManager.create.startOperation).2.cur_snap ∧
        (((MvccManager.create.startOperation).2.abortOperation 1).getD
            MvccManager.create).no_new_transactions_at_or_before =
          (MvccManager.create.startOperation).2.no_new_transactions_at_or_before := by
  have h := c10_inflight_uncommitted
  refine ⟨h.1 [.startOp] (MvccManager.create.startOperation).2 (by decide)
      (by rfl) (1, TxnState.reserved) (by decide), ?_⟩
  exact h.2.1 (MvccManager.create.startOperation).2
    (((MvccManager.create.startOperation).2.abortOperation 1).getD
      MvccManager.create) 1 (by rfl)

end Mvcc
